import Mathlib

/-!
# Verification development for the `vault` package

A shallow embedding of `vault/types.go`, `vault/crypto.go` and `vault/vault.go`.

* Go byte slices (`[]byte`) and Go strings are lists of natural numbers, each
  element meant to be below 256 (`isBytes`); a nil slice and an empty slice are
  both the empty list.
* Fixed-width unsigned integers are natural numbers, reduced modulo `2 ^ w`
  wherever the Go code converts or serialises them.
* A Go function returning `(value, error)` returns `Except GoError value`.
* The library calls the package makes (`bytes.Buffer`, `bytes.Reader`,
  `binary.Read/Write`, `io.ReadFull`) are embedded with the behaviour the Go
  standard library documents for them.
-/

namespace GoVault

/-- Go byte slice or string: the sequence of its bytes. -/
abbrev Bytes := List Nat

/-- Every element of the sequence is a byte. -/
def isBytes (bs : Bytes) : Prop := ∀ b ∈ bs, b < 256

instance (bs : Bytes) : Decidable (isBytes bs) := by
  unfold isBytes; infer_instance

/-- The error values that flow through the package. -/
inductive GoError where
  /-- `ErrLocked` of types.go -/
  | ErrLocked
  /-- `ErrCorrupt` of types.go -/
  | ErrCorrupt
  /-- `ErrAuthFailed` of types.go -/
  | ErrAuthFailed
  /-- `io.EOF` -/
  | EOF
  /-- `io.ErrUnexpectedEOF` -/
  | ErrUnexpectedEOF
  /-- `errors.New("salt too long")` -/
  | saltTooLong
  /-- `errors.New("nonce too long")` -/
  | nonceTooLong
  /-- the error `chacha20poly1305` returns when authentication fails -/
  | errOpen
  /-- an error of `encoding/json` -/
  | jsonError
  /-- an error of the operating system (package os) -/
  | osError
  /-- an error reading from the HKDF stream -/
  | hkdfError
  deriving DecidableEq, Repr

/-! ## types.go -/

def MasterKeyLen : Nat := 32
def FEKLen : Nat := 32
def NonceLen : Nat := 24
/-- The string "GVLT". -/
def Magic : Bytes := [0x47, 0x56, 0x4C, 0x54]
def Version : Nat := 0x01

structure Entry where
  ID : Bytes
  Title : Bytes
  Username : Bytes
  Secret : Bytes
  Notes : Bytes
  deriving DecidableEq, Repr

structure KDFParams where
  Time : Nat
  Memory : Nat
  Threads : Nat
  Salt : Bytes
  deriving DecidableEq, Repr

structure fileHeader where
  Flags : Nat
  KDFAlgo : Nat
  ArgonTime : Nat
  ArgonMemory : Nat
  ArgonThreads : Nat
  Salt : Bytes
  Nonce : Bytes
  deriving DecidableEq, Repr

/-- The values a Go `fileHeader` can hold: `Flags` is a uint16, `KDFAlgo` and
`ArgonThreads` are uint8, `ArgonTime` and `ArgonMemory` are uint32, and the two
slices hold bytes. -/
def fileHeader.wellTyped (h : fileHeader) : Prop :=
  h.Flags < 2 ^ 16 ∧ h.KDFAlgo < 2 ^ 8 ∧ h.ArgonTime < 2 ^ 32 ∧ h.ArgonMemory < 2 ^ 32 ∧
  h.ArgonThreads < 2 ^ 8 ∧ isBytes h.Salt ∧ isBytes h.Nonce

instance (h : fileHeader) : Decidable h.wellTyped := by
  unfold fileHeader.wellTyped; infer_instance

/-! ## Library: bytes.Buffer and binary.Write -/

/-- `(*bytes.Buffer).WriteString`: appends, the error is always nil. -/
def bufWriteString (buf : Bytes) (s : Bytes) : Except GoError Bytes := .ok (buf ++ s)

/-- `(*bytes.Buffer).WriteByte`: appends one byte, the error is always nil. -/
def bufWriteByte (buf : Bytes) (c : Nat) : Except GoError Bytes := .ok (buf ++ [c])

/-- `(*bytes.Buffer).Write`: appends, the error is always nil. -/
def bufWrite (buf : Bytes) (p : Bytes) : Except GoError Bytes := .ok (buf ++ p)

/-- `binary.BigEndian.PutUint16`. -/
def putUint16 (v : Nat) : Bytes := [v / 2 ^ 8 % 256, v % 256]

/-- `binary.BigEndian.PutUint32`. -/
def putUint32 (v : Nat) : Bytes :=
  [v / 2 ^ 24 % 256, v / 2 ^ 16 % 256, v / 2 ^ 8 % 256, v % 256]

/-- `binary.Write(buf, binary.BigEndian, v)` for a uint16 `v`. -/
def binaryWriteU16 (buf : Bytes) (v : Nat) : Except GoError Bytes := .ok (buf ++ putUint16 v)

/-- `binary.Write(buf, binary.BigEndian, v)` for a uint32 `v`. -/
def binaryWriteU32 (buf : Bytes) (v : Nat) : Except GoError Bytes := .ok (buf ++ putUint32 v)

/-! ## crypto.go: encodeHeader -/

def encodeHeader (h : fileHeader) : Except GoError Bytes := do
  let buf : Bytes := []
  -- Magic
  let buf ← bufWriteString buf Magic
  -- Version
  let buf ← bufWriteByte buf Version
  -- Flags
  let buf ← binaryWriteU16 buf h.Flags
  -- KDF Algo
  let buf ← bufWriteByte buf h.KDFAlgo
  -- Argon2 params
  let buf ← binaryWriteU32 buf h.ArgonTime
  let buf ← binaryWriteU32 buf h.ArgonMemory
  let buf ← bufWriteByte buf h.ArgonThreads
  -- Salt
  if h.Salt.length > 255 then
    throw GoError.saltTooLong
  let buf ← bufWriteByte buf (h.Salt.length % 256)
  let buf ← bufWrite buf h.Salt
  -- Nonce
  if h.Nonce.length > 255 then
    throw GoError.nonceTooLong
  let buf ← bufWriteByte buf (h.Nonce.length % 256)
  let buf ← bufWrite buf h.Nonce
  return buf

/-! ## Library: bytes.Reader, io.ReadFull and binary.Read -/

/-- The state of a `bytes.Reader`: the slice it reads and the read position. -/
structure Reader where
  s : Bytes
  i : Nat
  deriving DecidableEq, Repr

/-- `bytes.NewReader`. -/
def NewReader (raw : Bytes) : Reader := { s := raw, i := 0 }

/-- `(*bytes.Reader).Len`: the number of unread bytes. -/
def Reader.Len (r : Reader) : Nat :=
  if r.i ≥ r.s.length then 0 else r.s.length - r.i

/-- `(*bytes.Reader).Read(b)`: at the end of the input it returns `io.EOF`
(whatever the length of `b`), otherwise it copies as many bytes as fit and as
are left, without an error. The result is the destination after the call (the
bytes not written keep their old value) and the reader after the call. -/
def Reader.Read (r : Reader) (b : Bytes) : Except GoError (Bytes × Reader) :=
  if r.i ≥ r.s.length then
    .error GoError.EOF
  else
    let src := r.s.drop r.i
    let n := min b.length src.length
    .ok (src.take n ++ b.drop n, { r with i := r.i + n })

/-- `io.ReadFull(r, buf)` on a `bytes.Reader`, for a buffer of `n > 0` bytes:
`io.EOF` when nothing is left, `io.ErrUnexpectedEOF` when fewer than `n` bytes
are left, otherwise the next `n` bytes. -/
def ioReadFull (r : Reader) (n : Nat) : Except GoError (Bytes × Reader) :=
  let avail := r.Len
  if avail = 0 then
    .error GoError.EOF
  else if avail < n then
    .error GoError.ErrUnexpectedEOF
  else
    .ok ((r.s.drop r.i).take n, { r with i := r.i + n })

/-- `binary.BigEndian.Uint16`. -/
def getUint16 (bs : Bytes) : Nat := bs.getD 0 0 * 2 ^ 8 + bs.getD 1 0

/-- `binary.BigEndian.Uint32`. -/
def getUint32 (bs : Bytes) : Nat :=
  bs.getD 0 0 * 2 ^ 24 + bs.getD 1 0 * 2 ^ 16 + bs.getD 2 0 * 2 ^ 8 + bs.getD 3 0

/-- `binary.Read(buf, binary.BigEndian, &v)` for a uint8 `v`. -/
def binaryReadU8 (r : Reader) : Except GoError (Nat × Reader) := do
  let (bs, r) ← ioReadFull r 1
  return (bs.getD 0 0, r)

/-- `binary.Read(buf, binary.BigEndian, &v)` for a uint16 `v`. -/
def binaryReadU16 (r : Reader) : Except GoError (Nat × Reader) := do
  let (bs, r) ← ioReadFull r 2
  return (getUint16 bs, r)

/-- `binary.Read(buf, binary.BigEndian, &v)` for a uint32 `v`. -/
def binaryReadU32 (r : Reader) : Except GoError (Nat × Reader) := do
  let (bs, r) ← ioReadFull r 4
  return (getUint32 bs, r)

/-- `make([]byte, n)`. -/
def makeBytes (n : Nat) : Bytes := List.replicate n 0

/-! ## crypto.go: decodeHeader -/

def decodeHeader (raw : Bytes) : Except GoError (fileHeader × Bytes) := do
  if raw.length < 4 + 1 + 2 + 1 + 4 + 4 + 1 + 1 + 1 then -- minimal header check
    throw GoError.ErrCorrupt
  let buf := NewReader raw
  -- Magic
  let (magicBytes, buf) ← buf.Read (makeBytes 4)
  if magicBytes ≠ Magic then
    throw GoError.ErrCorrupt
  -- Version
  let (version, buf) ← binaryReadU8 buf
  if version ≠ Version then
    throw GoError.ErrCorrupt
  -- Flags
  let (flags, buf) ← binaryReadU16 buf
  -- KDF Algo
  let (kdfAlgo, buf) ← binaryReadU8 buf
  -- Argon2 params
  let (argonTime, buf) ← binaryReadU32 buf
  let (argonMemory, buf) ← binaryReadU32 buf
  let (argonThreads, buf) ← binaryReadU8 buf
  -- Salt
  let (saltLen, buf) ← binaryReadU8 buf
  let (salt, buf) ← buf.Read (makeBytes saltLen)
  -- Nonce
  let (nonceLen, buf) ← binaryReadU8 buf
  let (nonce, buf) ← buf.Read (makeBytes nonceLen)
  -- Remaining is ciphertext
  let ct := raw.drop (raw.length - buf.Len)
  return ({ Flags := flags, KDFAlgo := kdfAlgo, ArgonTime := argonTime,
            ArgonMemory := argonMemory, ArgonThreads := argonThreads,
            Salt := salt, Nonce := nonce }, ct)

/-- The header `Create` builds: Flags 0, Argon2id, default parameters, a 16-byte
salt and a 24-byte nonce. -/
def sampleHeader : fileHeader :=
  { Flags := 0, KDFAlgo := 0x01, ArgonTime := 3, ArgonMemory := 256 * 1024, ArgonThreads := 1,
    Salt := List.range 16, Nonce := (List.range 24).map (· + 100) }

/-- A header with an empty nonce. -/
def sampleHeaderEmptyNonce : fileHeader := { sampleHeader with Nonce := [] }

/-- The closed form of `decodeHeader`, used to reason about it. -/
def decodeHeaderClosed (raw : Bytes) : Except GoError (fileHeader × Bytes) :=
  if raw.length < 19 then .error GoError.ErrCorrupt
  else if raw.take 4 ≠ Magic then .error GoError.ErrCorrupt
  else if raw.getD 4 0 ≠ Version then .error GoError.ErrCorrupt
  else
    let s := raw.getD 17 0
    if raw.length ≤ 18 + s then .error GoError.EOF
    else
      let n := raw.getD (18 + s) 0
      if raw.length ≤ 19 + s then .error GoError.EOF
      else
        let src := raw.drop (19 + s)
        let k := min n src.length
        .ok ({ Flags := raw.getD 5 0 * 2 ^ 8 + raw.getD 6 0,
               KDFAlgo := raw.getD 7 0,
               ArgonTime := raw.getD 8 0 * 2 ^ 24 + raw.getD 9 0 * 2 ^ 16
                              + raw.getD 10 0 * 2 ^ 8 + raw.getD 11 0,
               ArgonMemory := raw.getD 12 0 * 2 ^ 24 + raw.getD 13 0 * 2 ^ 16
                              + raw.getD 14 0 * 2 ^ 8 + raw.getD 15 0,
               ArgonThreads := raw.getD 16 0,
               Salt := (raw.drop 18).take s,
               Nonce := src.take k ++ List.replicate (n - k) 0 },
             raw.drop (19 + s + k))

/-! ## The documented file layout (section 6 of the specification) -/

/-- Big-endian representation of `v` in `w` bytes. -/
def bigEndian : Nat → Nat → Bytes
  | 0, _ => []
  | w + 1, v => bigEndian w (v / 256) ++ [v % 256]

/-- The header as the format table lays it out:
magic(4) | version(1) | flags(2) | kdfAlgo(1) | kdfTime(4) | kdfMemory(4) |
kdfThreads(1) | saltLen(1) + salt | nonceLen(1) + nonce. -/
def headerLayout (h : fileHeader) : Bytes :=
  Magic ++ [0x01] ++ bigEndian 2 h.Flags ++ [h.KDFAlgo] ++ bigEndian 4 h.ArgonTime
    ++ bigEndian 4 h.ArgonMemory ++ [h.ArgonThreads]
    ++ [h.Salt.length] ++ h.Salt ++ [h.Nonce.length] ++ h.Nonce

/-! ## Calls that may panic -/

/-- What a call produces: it returns a value, or it panics. -/
inductive Outcome (α : Type) where
  | ret (a : α)
  | panic
  deriving Repr

/-! ## The external primitives

The package calls `argon2.IDKey`, `hkdf.New`, `chacha20poly1305.NewX` and the
`Seal` and `Open` of the cipher it returns. Their cryptographic cores are
parameters; the argument checks the libraries make before running the core
are embedded below. -/

structure Primitives where
  /-- Argon2id on password, salt, time, memory, threads, key length -/
  argon2id : Bytes → Bytes → Nat → Nat → Nat → Nat → Bytes
  /-- HKDF-SHA256 on secret, salt, info: the first `n` bytes of the output stream -/
  hkdfSha256 : Bytes → Bytes → Bytes → Nat → Bytes
  /-- XChaCha20-Poly1305 sealing of a plaintext under key, nonce and associated data -/
  sealCore : (key nonce plaintext aad : Bytes) → Bytes
  /-- XChaCha20-Poly1305 opening of a ciphertext under key, nonce and associated data -/
  openCore : (key nonce ciphertext aad : Bytes) → Option Bytes

/-- `argon2.IDKey`: panics when the number of rounds or the parallelism degree
is below 1. -/
def argon2IDKey (P : Primitives) (password salt : Bytes) (time memory threads keyLen : Nat) :
    Outcome Bytes :=
  if time < 1 then .panic
  else if threads < 1 then .panic
  else .ret (P.argon2id password salt time memory threads keyLen)

/-- `io.ReadFull(hkdf.New(sha256.New, secret, salt, info), out)` for an output
of `n` bytes: the stream ends after 255 blocks of 32 bytes. -/
def hkdfReadFull (P : Primitives) (secret salt info : Bytes) (n : Nat) : Except GoError Bytes :=
  if n > 255 * 32 then .error GoError.hkdfError
  else .ok (P.hkdfSha256 secret salt info n)

/-- `chacha20poly1305.NewX(key)` returns a cipher only for a 32-byte key; the
package discards the error, so the method call on the nil cipher panics. Then
`Seal` panics on a nonce that is not 24 bytes long and on a plaintext that is
too large. -/
def xchachaSeal (P : Primitives) (key nonce plaintext aad : Bytes) : Outcome Bytes :=
  if key.length ≠ 32 then .panic
  else if nonce.length ≠ 24 then .panic
  else if plaintext.length > 2 ^ 38 - 64 then .panic
  else .ret (P.sealCore key nonce plaintext aad)

/-- `NewX(key)` followed by `Open`: panics on a nil cipher, on a nonce that is
not 24 bytes long and on a ciphertext that is too large; a ciphertext shorter
than the tag is an authentication failure. -/
def xchachaOpen (P : Primitives) (key nonce ciphertext aad : Bytes) :
    Outcome (Except GoError Bytes) :=
  if key.length ≠ 32 then .panic
  else if nonce.length ≠ 24 then .panic
  else if ciphertext.length < 16 then .ret (.error GoError.errOpen)
  else if ciphertext.length > 2 ^ 38 - 48 then .panic
  else match P.openCore key nonce ciphertext aad with
    | some pt => .ret (.ok pt)
    | none => .ret (.error GoError.errOpen)

/-- The state of `crypto/rand.Reader`: a stream of values and the position in it. -/
structure Rand where
  stream : Nat → Nat
  pos : Nat

/-! ## crypto.go: zero, randBytes, key derivation, sealing -/

/-- The loop `for i := range b { b[i] = 0 }`. -/
def zero : Bytes → Bytes
  | [] => []
  | _ :: bs => 0 :: zero bs

def randBytes (r : Rand) (n : Nat) : Bytes × Rand :=
  ((List.range n).map (fun k => r.stream (r.pos + k) % 256), { r with pos := r.pos + n })

def DefaultKDFParams : KDFParams := { Time := 3, Memory := 256 * 1024, Threads := 1, Salt := [] }

/-- The result is what the function returns together with the caller's
passphrase buffer after the call. -/
def DeriveFEKFromPassphrase (P : Primitives) (passphrase : Bytes) (params : KDFParams)
    (info : Bytes) : Outcome (Except GoError Bytes × Bytes) :=
  match argon2IDKey P passphrase params.Salt params.Time params.Memory params.Threads
      MasterKeyLen with
  | .panic => .panic
  | .ret master =>
    let passphrase := zero passphrase
    match hkdfReadFull P master [] info FEKLen with
    | .error err => .ret (.error err, passphrase)
    | .ok fek => .ret (.ok fek, passphrase)

/-- The result is nonce and ciphertext, and the random source after the call. -/
def AEADSeal (P : Primitives) (rand : Rand) (fek plaintext aad : Bytes) :
    Outcome ((Bytes × Bytes) × Rand) :=
  let (nonce, rand) := randBytes rand NonceLen
  match xchachaSeal P fek nonce plaintext aad with
  | .panic => .panic
  | .ret ct => .ret ((nonce, ct), rand)

def AEADOpen (P : Primitives) (fek nonce aad ciphertext : Bytes) :
    Outcome (Except GoError Bytes) :=
  xchachaOpen P fek nonce ciphertext aad

/-! ## The file system and atomicWriteFile -/

structure File where
  data : Bytes
  perm : Nat
  deriving DecidableEq, Repr

/-- The files, by path. -/
abbrev FileSys := String → Option File

def FileSys.set (fs : FileSys) (path : String) (f : Option File) : FileSys :=
  fun p => if p = path then f else fs p

/-- What the operating system does at each step of one `atomicWriteFile` call:
the path of the temporary file `os.CreateTemp(filepath.Dir(path), "gvlt-*")`
creates for a target path, and which steps fail. -/
structure OSEnv where
  tempPath : String → String
  createTempFails : Bool
  writeFails : Bool
  /-- the number of bytes written by a failing write -/
  writeCount : Nat
  syncFails : Bool
  closeFails : Bool
  renameFails : Bool
  syncDirFails : Bool
  chmodFails : Bool

/-- `os.ReadFile`. -/
def osReadFile (fs : FileSys) (path : String) : Except GoError Bytes :=
  match fs path with
  | some f => .ok f.data
  | none => .error GoError.osError

/-- `os.Rename(old, new)`. -/
def osRename (fs : FileSys) (old new : String) : FileSys :=
  fun p => if p = new then fs old else if p = old then none else fs p

/-- `os.Remove(path)`. -/
def osRemove (fs : FileSys) (path : String) : FileSys := fs.set path none

/-- `os.Chmod(path, perm)`. -/
def osChmod (fs : FileSys) (path : String) (perm : Nat) : FileSys :=
  match fs path with
  | some f => fs.set path (some { f with perm := perm })
  | none => fs

def syncDir (env : OSEnv) : Option GoError :=
  if env.syncDirFails then some GoError.osError else none

def atomicWriteFile (env : OSEnv) (fs : FileSys) (path : String) (data : Bytes) (perm : Nat) :
    Option GoError × FileSys :=
  let tmpPath := env.tempPath path
  -- os.CreateTemp creates a file that did not exist
  if env.createTempFails ∨ (fs tmpPath).isSome then (some GoError.osError, fs) else
  let fs := fs.set tmpPath (some { data := [], perm := 0o600 })
  -- the deferred function: tmpFile.Close(); os.Remove(tmpPath)
  let deferred := fun (fs : FileSys) => osRemove fs tmpPath
  if env.writeFails then
    (some GoError.osError,
      deferred (fs.set tmpPath (some { data := data.take env.writeCount, perm := 0o600 }))) else
  let fs := fs.set tmpPath (some { data := data, perm := 0o600 })
  if env.syncFails then (some GoError.osError, deferred fs) else
  if env.closeFails then (some GoError.osError, deferred fs) else
  if env.renameFails then (some GoError.osError, deferred fs) else
  let fs := osRename fs tmpPath path
  let _ := syncDir env
  let fs := if env.chmodFails then fs else osChmod fs path perm
  (none, deferred fs)

/-! ## vault.go -/

structure plaintextVault where
  Entries : List Entry
  deriving DecidableEq, Repr

/-- The two calls of `encoding/json` the package makes: `json.Marshal(v.data)`
and `json.Unmarshal(pt, &v.data)`, the latter giving the error and the value
`v.data` holds after the call. -/
structure JSONCodec where
  Marshal : plaintextVault → Bytes
  Unmarshal : Bytes → plaintextVault → Option GoError × plaintextVault

structure Vault where
  Filename : String
  KDF : KDFParams
  FEK : Bytes
  Locked : Bool
  data : plaintextVault
  deriving DecidableEq, Repr

def NewVault (filename : String) (kdf : Option KDFParams) : Vault :=
  let kdf := match kdf with
    | none => DefaultKDFParams
    | some k => k
  { Filename := filename, KDF := kdf, FEK := [], Locked := false, data := { Entries := [] } }

/-- What `Create`, `Open` and `Save` leave behind when they return: the error
(nil is `none`), the vault, the caller's passphrase buffer, the file system and
the random source. -/
structure World where
  err : Option GoError
  v : Vault
  passphrase : Bytes
  fs : FileSys
  rand : Rand

/-- The string "vault v1". -/
def infoVaultV1 : Bytes := [0x76, 0x61, 0x75, 0x6C, 0x74, 0x20, 0x76, 0x31]

def Vault.Create (P : Primitives) (J : JSONCodec) (env : OSEnv) (fs : FileSys) (rand : Rand)
    (v : Vault) (passphrase : Bytes) : Outcome World :=
  let (v, rand) : Vault × Rand :=
    if v.KDF.Salt.length = 0 then
      let (salt, rand) := randBytes rand 16
      ({ v with KDF := { v.KDF with Salt := salt } }, rand)
    else (v, rand)
  match DeriveFEKFromPassphrase P passphrase v.KDF infoVaultV1 with
  | .panic => .panic
  | .ret (.error err, passphrase) => .ret ⟨some err, v, passphrase, fs, rand⟩
  | .ret (.ok fek, passphrase) =>
    let v := { v with FEK := fek }
    let v := { v with data := { Entries := [] } }
    -- Marshal plaintext
    let pt := J.Marshal v.data
    -- AEAD encryption
    match AEADSeal P rand v.FEK pt Magic with
    | .panic => .panic
    | .ret ((nonce, ct), rand) =>
      -- Build file header
      let header : fileHeader :=
        { Flags := 0, KDFAlgo := 0x01, ArgonTime := v.KDF.Time, ArgonMemory := v.KDF.Memory,
          ArgonThreads := v.KDF.Threads, Salt := v.KDF.Salt, Nonce := nonce }
      match encodeHeader header with
      | .error err => .ret ⟨some err, v, passphrase, fs, rand⟩
      | .ok hdrBytes =>
        -- Combine header + ciphertext
        let raw := hdrBytes ++ ct
        let (err, fs) := atomicWriteFile env fs v.Filename raw 0o600
        .ret ⟨err, v, passphrase, fs, rand⟩

def Vault.Open (P : Primitives) (J : JSONCodec) (fs : FileSys) (rand : Rand)
    (v : Vault) (passphrase : Bytes) : Outcome World :=
  match osReadFile fs v.Filename with
  | .error err => .ret ⟨some err, v, passphrase, fs, rand⟩
  | .ok raw =>
    -- Decode header
    match decodeHeader raw with
    | .error _ => .ret ⟨some GoError.ErrCorrupt, v, passphrase, fs, rand⟩
    | .ok (header, ct) =>
      -- Restore KDF params from header
      let v := { v with KDF := { v.KDF with Time := header.ArgonTime } }
      let v := { v with KDF := { v.KDF with Memory := header.ArgonMemory } }
      let v := { v with KDF := { v.KDF with Threads := header.ArgonThreads } }
      let v := { v with KDF := { v.KDF with Salt := header.Salt } }
      match DeriveFEKFromPassphrase P passphrase v.KDF infoVaultV1 with
      | .panic => .panic
      | .ret (.error err, passphrase) => .ret ⟨some err, v, passphrase, fs, rand⟩
      | .ret (.ok fek, passphrase) =>
        let v := { v with FEK := fek }
        match AEADOpen P v.FEK header.Nonce Magic ct with
        | .panic => .panic
        | .ret (.error _) => .ret ⟨some GoError.ErrAuthFailed, v, passphrase, fs, rand⟩
        | .ret (.ok pt) =>
          let (err, data) := J.Unmarshal pt v.data
          .ret ⟨err, { v with data := data }, passphrase, fs, rand⟩

/-- `Save` takes no passphrase; the `passphrase` field of the result is empty. -/
def Vault.Save (P : Primitives) (J : JSONCodec) (env : OSEnv) (fs : FileSys) (rand : Rand)
    (v : Vault) : Outcome World :=
  let pt := J.Marshal v.data
  match AEADSeal P rand v.FEK pt Magic with
  | .panic => .panic
  | .ret ((nonce, ct), rand) =>
    let header : fileHeader :=
      { Flags := 0, KDFAlgo := 0x01, ArgonTime := v.KDF.Time, ArgonMemory := v.KDF.Memory,
        ArgonThreads := v.KDF.Threads, Salt := v.KDF.Salt, Nonce := nonce }
    match encodeHeader header with
    | .error err => .ret ⟨some err, v, [], fs, rand⟩
    | .ok hdrBytes =>
      let raw := hdrBytes ++ ct
      let (err, fs) := atomicWriteFile env fs v.Filename raw 0o600
      .ret ⟨err, v, [], fs, rand⟩

/-! ### CRUD operations -/

def Vault.List (v : Vault) : List Entry := v.data.Entries

def Vault.Add (v : Vault) (e : Entry) : Vault :=
  { v with data := { Entries := v.data.Entries ++ [e] } }

/-- The loop of `Get` over the entries still to visit. -/
def getLoop (id : Bytes) : List Entry → Option Entry
  | [] => none
  | e :: rest => if e.ID = id then some e else getLoop id rest

def Vault.Get (v : Vault) (id : Bytes) : Option Entry := getLoop id v.data.Entries

/-- The loop of `Delete`: `entries` is the whole slice, `i` the index of the
iteration and the last argument the entries still to visit. -/
def deleteLoop (entries : List Entry) (id : Bytes) : Nat → List Entry → List Entry
  | _, [] => entries
  | i, e :: rest =>
    if e.ID = id then entries.take i ++ entries.drop (i + 1)
    else deleteLoop entries id (i + 1) rest

def Vault.Delete (v : Vault) (id : Bytes) : Vault :=
  { v with data := { Entries := deleteLoop v.data.Entries id 0 v.data.Entries } }

/-! ## Library: unicode/utf8 and unicode/utf16 -/

/-- `utf8.RuneError`, the replacement character U+FFFD. -/
def RuneError : Nat := 0xFFFD

/-- A continuation byte of UTF-8. -/
def isCont (b : Nat) : Bool := 0x80 ≤ b && b ≤ 0xBF

/-- `utf8.DecodeRune`: the rune at the start of the input and its width in
bytes; `(RuneError, 1)` when the encoding is invalid (too short, over-long, a
surrogate, out of range), `(RuneError, 0)` on the empty input. -/
def decodeRune : Bytes → Nat × Nat
  | [] => (RuneError, 0)
  | b0 :: rest =>
    if b0 < 0x80 then (b0, 1)
    else if b0 < 0xC2 then (RuneError, 1)
    else if b0 < 0xE0 then
      match rest with
      | b1 :: _ =>
        if isCont b1 then ((b0 - 0xC0) * 64 + (b1 - 0x80), 2) else (RuneError, 1)
      | _ => (RuneError, 1)
    else if b0 < 0xF0 then
      let lo := if b0 = 0xE0 then 0xA0 else 0x80
      let hi := if b0 = 0xED then 0x9F else 0xBF
      match rest with
      | b1 :: b2 :: _ =>
        if lo ≤ b1 ∧ b1 ≤ hi ∧ isCont b2 then
          ((b0 - 0xE0) * 4096 + (b1 - 0x80) * 64 + (b2 - 0x80), 3)
        else (RuneError, 1)
      | _ => (RuneError, 1)
    else if b0 < 0xF5 then
      let lo := if b0 = 0xF0 then 0x90 else 0x80
      let hi := if b0 = 0xF4 then 0x8F else 0xBF
      match rest with
      | b1 :: b2 :: b3 :: _ =>
        if lo ≤ b1 ∧ b1 ≤ hi ∧ isCont b2 ∧ isCont b3 then
          ((b0 - 0xF0) * 262144 + (b1 - 0x80) * 4096 + (b2 - 0x80) * 64 + (b3 - 0x80), 4)
        else (RuneError, 1)
      | _ => (RuneError, 1)
    else (RuneError, 1)

/-- `utf8.AppendRune(nil, r)`: surrogates and values above U+10FFFF are written
as the replacement character. -/
def encodeRune (r : Nat) : Bytes :=
  if r < 0x80 then [r]
  else if r < 0x800 then [0xC0 + r / 64, 0x80 + r % 64]
  else if (0xD800 ≤ r ∧ r < 0xE000) ∨ 0x10FFFF < r then [0xEF, 0xBF, 0xBD]
  else if r < 0x10000 then [0xE0 + r / 4096, 0x80 + r / 64 % 64, 0x80 + r % 64]
  else [0xF0 + r / 262144, 0x80 + r / 4096 % 64, 0x80 + r / 64 % 64, 0x80 + r % 64]

/-- The loop of `utf8.Valid`, with `fuel` bounding the iterations. -/
def utf8ValidAux : Nat → Bytes → Bool
  | _, [] => true
  | 0, _ :: _ => false
  | fuel + 1, b :: rest =>
    let (c, size) := decodeRune (b :: rest)
    if c = RuneError ∧ size = 1 then false
    else utf8ValidAux fuel ((b :: rest).drop size)

/-- `utf8.Valid` / `utf8.ValidString`. -/
def utf8Valid (s : Bytes) : Bool := utf8ValidAux s.length s

/-- `utf16.IsSurrogate`. -/
def isSurrogate (r : Nat) : Bool := 0xD800 ≤ r && r < 0xE000

/-- `utf16.DecodeRune` on two optional code units (the second may be missing). -/
def utf16DecodeRune (r1 : Nat) (r2 : Option Nat) : Nat :=
  match r2 with
  | some r2 =>
    if 0xD800 ≤ r1 ∧ r1 < 0xDC00 ∧ 0xDC00 ≤ r2 ∧ r2 < 0xE000 then
      (r1 - 0xD800) * 1024 + (r2 - 0xDC00) + 0x10000
    else RuneError
  | none => RuneError

/-! ## Library: encoding/base64 (StdEncoding) -/

/-- The alphabet `A-Z a-z 0-9 + /`. -/
def b64Char (v : Nat) : Nat :=
  if v < 26 then 65 + v
  else if v < 52 then 97 + (v - 26)
  else if v < 62 then 48 + (v - 52)
  else if v = 62 then 43
  else 47

/-- The value of a character of the alphabet. -/
def b64Val (c : Nat) : Option Nat :=
  if 65 ≤ c ∧ c ≤ 90 then some (c - 65)
  else if 97 ≤ c ∧ c ≤ 122 then some (c - 97 + 26)
  else if 48 ≤ c ∧ c ≤ 57 then some (c - 48 + 52)
  else if c = 43 then some 62
  else if c = 47 then some 63
  else none

/-- `base64.StdEncoding.EncodeToString`. -/
def b64Encode : Bytes → Bytes
  | [] => []
  | [a] => [b64Char (a / 4), b64Char (a % 4 * 16), 61, 61]
  | [a, b] => [b64Char (a / 4), b64Char (a % 4 * 16 + b / 16), b64Char (b % 16 * 4), 61]
  | a :: b :: c :: rest =>
    b64Char (a / 4) :: b64Char (a % 4 * 16 + b / 16) :: b64Char (b % 16 * 4 + c / 64)
      :: b64Char (c % 64) :: b64Encode rest

/-- `base64.StdEncoding.DecodeString` on input without line breaks: groups of
four characters, the last one padded with `=` (61) when it holds one or two
bytes. -/
def b64Decode : Bytes → Option Bytes
  | [] => some []
  | c0 :: c1 :: c2 :: c3 :: rest =>
    if rest = [] ∧ c3 = 61 then
      if c2 = 61 then
        match b64Val c0, b64Val c1 with
        | some v0, some v1 => some [v0 * 4 + v1 / 16]
        | _, _ => none
      else
        match b64Val c0, b64Val c1, b64Val c2 with
        | some v0, some v1, some v2 => some [v0 * 4 + v1 / 16, v1 % 16 * 16 + v2 / 4]
        | _, _, _ => none
    else
      match b64Val c0, b64Val c1, b64Val c2, b64Val c3, b64Decode rest with
      | some v0, some v1, some v2, some v3, some tail =>
        some ((v0 * 4 + v1 / 16) :: (v1 % 16 * 16 + v2 / 4) :: (v2 % 4 * 64 + v3) :: tail)
      | _, _, _, _, _ => none
  | _ => none

/-! ## Library: encoding/json -/

/-- The bytes of an ASCII string. -/
def ascii (s : String) : Bytes := s.toList.map Char.toNat

/-- The table `hex` of the encoder: a lower-case hexadecimal digit. -/
def hexDigit (v : Nat) : Nat := if v < 10 then 48 + v else 97 + (v - 10)

/-- The value of a hexadecimal digit, in either case. -/
def hexVal (c : Nat) : Option Nat :=
  if 48 ≤ c ∧ c ≤ 57 then some (c - 48)
  else if 97 ≤ c ∧ c ≤ 102 then some (c - 97 + 10)
  else if 65 ≤ c ∧ c ≤ 70 then some (c - 65 + 10)
  else none

/-- The table `htmlSafeSet` of the encoder: the ASCII characters written as
they are, which is all from the space on except `"`, `&`, `<`, `>` and `\`. -/
def htmlSafe (b : Nat) : Bool :=
  0x20 ≤ b && b < 0x80 && b != 0x22 && b != 0x26 && b != 0x3C && b != 0x3E && b != 0x5C

/-- The escape the encoder writes for an ASCII character outside `htmlSafeSet`. -/
def escapeASCII (b : Nat) : Bytes :=
  if b = 0x5C ∨ b = 0x22 then [0x5C, b]
  else if b = 0x08 then [0x5C, 0x62]
  else if b = 0x0C then [0x5C, 0x66]
  else if b = 0x0A then [0x5C, 0x6E]
  else if b = 0x0D then [0x5C, 0x72]
  else if b = 0x09 then [0x5C, 0x74]
  else [0x5C, 0x75, 0x30, 0x30, hexDigit (b / 16), hexDigit (b % 16)]

/-- The loop of the encoder's `appendString` (with `escapeHTML`), without the
surrounding quotes; `fuel` bounds the iterations. An invalid byte is written
as the escape of U+FFFD, U+2028 and U+2029 are written as escapes. -/
def appendStringAux : Nat → Bytes → Bytes
  | _, [] => []
  | 0, _ :: _ => []
  | fuel + 1, b :: rest =>
    if b < 0x80 then
      if htmlSafe b then b :: appendStringAux fuel rest
      else escapeASCII b ++ appendStringAux fuel rest
    else
      let (c, size) := decodeRune (b :: rest)
      if c = RuneError ∧ size = 1 then
        ascii "\\ufffd" ++ appendStringAux fuel rest
      else if c = 0x2028 ∨ c = 0x2029 then
        ascii "\\u202" ++ [hexDigit (c % 16)] ++ appendStringAux fuel ((b :: rest).drop size)
      else
        (b :: rest).take size ++ appendStringAux fuel ((b :: rest).drop size)

/-- The encoder's `appendString`: a JSON string literal. -/
def appendString (src : Bytes) : Bytes := [0x22] ++ appendStringAux src.length src ++ [0x22]

/-- The encoding of a `[]byte`: the base64 text in quotes. -/
def appendBytes (src : Bytes) : Bytes := [0x22] ++ b64Encode src ++ [0x22]

/-- The encoding of an `Entry`. -/
def marshalEntry (e : Entry) : Bytes :=
  ascii "\x7b\"ID\":" ++ appendString e.ID ++ ascii ",\"Title\":" ++ appendString e.Title
    ++ ascii ",\"Username\":" ++ appendString e.Username
    ++ ascii ",\"Secret\":" ++ appendBytes e.Secret
    ++ ascii ",\"Notes\":" ++ appendString e.Notes ++ ascii "\x7d"

/-- The elements of an array, separated by commas. -/
def marshalEntries : List Entry → Bytes
  | [] => []
  | [e] => marshalEntry e
  | e :: es => marshalEntry e ++ [0x2C] ++ marshalEntries es

/-- `json.Marshal(v.data)`. (A nil `Entries` is written as `null` and a nil
`Secret` as `null`; the lists of this embedding stand for the non-nil slices
that `Create`, `Open` and the command line produce.) -/
def jsonMarshal (d : plaintextVault) : Bytes :=
  ascii "\x7b\"Entries\":[" ++ marshalEntries d.Entries ++ ascii "]\x7d"

/-- The decoder's `getu4` on the text after `\u`: the value of four
hexadecimal digits. -/
def getu4 (s : Bytes) : Option Nat :=
  match s with
  | h1 :: h2 :: h3 :: h4 :: _ =>
    match hexVal h1, hexVal h2, hexVal h3, hexVal h4 with
    | some v1, some v2, some v3, some v4 => some (v1 * 4096 + v2 * 256 + v3 * 16 + v4)
    | _, _, _, _ => none
  | _ => none

/-- The value of a second `\uXXXX` escape, if the input starts with one. -/
def getu4Escape (s : Bytes) : Option Nat :=
  match s with
  | 0x5C :: 0x75 :: rest => getu4 rest
  | _ => none

/-- The decoder on the inside of a string literal, up to and including the
closing quote: the scanner's checks (no control character, only the escapes of
JSON) and `unquoteBytes` (escapes replaced, invalid UTF-8 replaced by U+FFFD,
surrogate halves paired). The result is the string and the input after the
literal; `fuel` bounds the iterations. -/
def unquoteAux : Nat → Bytes → Option (Bytes × Bytes)
  | _, [] => none
  | 0, _ :: _ => none
  | fuel + 1, c :: rest =>
    if c = 0x22 then some ([], rest)
    else if c = 0x5C then
      match rest with
      | [] => none
      | e :: rest2 =>
        let simple : Option Nat :=
          if e = 0x22 ∨ e = 0x5C ∨ e = 0x2F then some e
          else if e = 0x62 then some 0x08
          else if e = 0x66 then some 0x0C
          else if e = 0x6E then some 0x0A
          else if e = 0x72 then some 0x0D
          else if e = 0x74 then some 0x09
          else none
        match simple with
        | some b => (unquoteAux fuel rest2).map fun (s, r) => (b :: s, r)
        | none =>
          if e = 0x75 then
            match getu4 rest2 with
            | none => none
            | some rr =>
              let rest3 := rest2.drop 4
              if isSurrogate rr then
                let dec := utf16DecodeRune rr (getu4Escape rest3)
                if dec ≠ RuneError then
                  (unquoteAux fuel (rest3.drop 6)).map fun (s, r) => (encodeRune dec ++ s, r)
                else
                  (unquoteAux fuel rest3).map fun (s, r) => (encodeRune RuneError ++ s, r)
              else
                (unquoteAux fuel rest3).map fun (s, r) => (encodeRune rr ++ s, r)
          else none
    else if c < 0x20 then none
    else if c < 0x80 then (unquoteAux fuel rest).map fun (s, r) => (c :: s, r)
    else
      let (rr, size) := decodeRune (c :: rest)
      (unquoteAux fuel ((c :: rest).drop size)).map fun (s, r) => (encodeRune rr ++ s, r)

/-- The input after the literal text `lit`, if the input starts with it. -/
def jsonExpect (lit input : Bytes) : Option Bytes :=
  if input.take lit.length = lit then some (input.drop lit.length) else none

/-- A JSON string literal at the start of the input, decoded into a Go string. -/
def parseString (input : Bytes) : Option (Bytes × Bytes) :=
  match input with
  | 0x22 :: rest => unquoteAux rest.length rest
  | _ => none

/-- A JSON value decoded into a `[]byte`: `null`, or a string holding base64. -/
def parseBytes (input : Bytes) : Option (Bytes × Bytes) :=
  match jsonExpect (ascii "null") input with
  | some rest => some ([], rest)
  | none =>
    match parseString input with
    | none => none
    | some (s, rest) =>
      match b64Decode s with
      | none => none
      | some b => some (b, rest)

/-- An object decoded into an `Entry`, in the form `marshalEntry` writes. -/
def parseEntry (input : Bytes) : Option (Entry × Bytes) := do
  let rest ← jsonExpect (ascii "\x7b\"ID\":") input
  let (id, rest) ← parseString rest
  let rest ← jsonExpect (ascii ",\"Title\":") rest
  let (title, rest) ← parseString rest
  let rest ← jsonExpect (ascii ",\"Username\":") rest
  let (username, rest) ← parseString rest
  let rest ← jsonExpect (ascii ",\"Secret\":") rest
  let (secret, rest) ← parseBytes rest
  let rest ← jsonExpect (ascii ",\"Notes\":") rest
  let (notes, rest) ← parseString rest
  let rest ← jsonExpect (ascii "\x7d") rest
  return ({ ID := id, Title := title, Username := username, Secret := secret, Notes := notes },
    rest)

/-- The array elements after the first one, up to and including the closing
bracket; `fuel` bounds the number of elements. -/
def parseEntriesTail : Nat → Bytes → Option (List Entry × Bytes)
  | 0, _ => none
  | fuel + 1, input =>
    match input with
    | 0x5D :: rest => some ([], rest)
    | 0x2C :: rest =>
      match parseEntry rest with
      | none => none
      | some (e, rest) =>
        match parseEntriesTail fuel rest with
        | none => none
        | some (es, rest) => some (e :: es, rest)
    | _ => none

/-- A JSON value decoded into a `[]Entry`: `null` or an array of entries. -/
def parseEntries (input : Bytes) : Option (List Entry × Bytes) :=
  match jsonExpect (ascii "null") input with
  | some rest => some ([], rest)
  | none =>
    match input with
    | 0x5B :: 0x5D :: rest => some ([], rest)
    | 0x5B :: rest =>
      match parseEntry rest with
      | none => none
      | some (e, rest) =>
        match parseEntriesTail rest.length rest with
        | none => none
        | some (es, rest) => some (e :: es, rest)
    | _ => none

/-- A whole document decoded into a `plaintextVault`. -/
def parseVault (data : Bytes) : Option plaintextVault := do
  let rest ← jsonExpect (ascii "\x7b\"Entries\":") data
  let (es, rest) ← parseEntries rest
  let rest ← jsonExpect (ascii "\x7d") rest
  if rest = [] then some { Entries := es } else none

/-- `json.Unmarshal(pt, &v.data)` on the documents `json.Marshal` writes for a
`plaintextVault`: one object with the key "Entries", holding `null` or an array
of objects with the five keys of `Entry` in the order of declaration, without
white space; string literals are decoded as the library decodes them. The
library also accepts other spellings of such a document (white space, keys in
another order or letter case, unknown or repeated keys); this embedding reports
those, like the documents the library rejects, as an error and leaves the
value as it was. -/
def jsonUnmarshal (data : Bytes) (old : plaintextVault) : Option GoError × plaintextVault :=
  match parseVault data with
  | some d => (none, d)
  | none => (some GoError.jsonError, old)

/-- The `encoding/json` calls of the package. -/
def goJSON : JSONCodec := { Marshal := jsonMarshal, Unmarshal := jsonUnmarshal }

/-- The characters that stand for themselves in a string literal and are
ASCII: among them those of base64 text. -/
def plainChar (c : Nat) : Prop := 0x20 ≤ c ∧ c < 0x80 ∧ c ≠ 0x22 ∧ c ≠ 0x5C

/-- An entry whose strings are valid UTF-8 (`utf8.ValidString`) and whose
secret is a sequence of bytes. -/
def Entry.valid (e : Entry) : Prop :=
  utf8Valid e.ID = true ∧ utf8Valid e.Title = true ∧ utf8Valid e.Username = true ∧
  isBytes e.Secret ∧ utf8Valid e.Notes = true

instance (e : Entry) : Decidable e.valid := by
  unfold Entry.valid; infer_instance

/-- The elements of an array after the first one, each with the comma before it. -/
def marshalTail : List Entry → Bytes
  | [] => []
  | e :: es => [0x2C] ++ marshalEntry e ++ marshalTail es

/-! ### Sample entries -/

/-- The string "1". -/
def sampleID : Bytes := [0x31]

/-- `Entry{ID: "1", Title: "email", Secret: []byte("hunter2")}`. -/
def sampleEntry : Entry :=
  { ID := sampleID, Title := [0x65, 0x6D, 0x61, 0x69, 0x6C], Username := [],
    Secret := [0x68, 0x75, 0x6E, 0x74, 0x65, 0x72, 0x32], Notes := [] }

/-- A second entry with the ID "1": `Entry{ID: "1", Title: "bank"}`. -/
def sampleEntryDup : Entry :=
  { ID := sampleID, Title := [0x62, 0x61, 0x6E, 0x6B], Username := [], Secret := [], Notes := [] }

/-! ### Sample runs

Stand-ins for the cryptographic cores, to run the code on concrete inputs. They
are not cryptography: the derived keys are check sums of the inputs and the
ciphertext is the plaintext followed by a 16-byte tag made of a check sum. -/

def checksum (bs : Bytes) : Nat := bs.foldl (fun acc b => (acc * 31 + b + 1) % 251) 7

def sampleTag (key nonce text aad : Bytes) : Bytes :=
  List.replicate 16 ((checksum key + 3 * checksum nonce + 5 * checksum aad + 7 * checksum text) % 256)

def samplePrimitives : Primitives where
  argon2id := fun pw salt t m th keyLen =>
    (List.range keyLen).map fun j => (checksum pw + checksum salt + t + m + th + j) % 256
  hkdfSha256 := fun secret salt info n =>
    (List.range n).map fun j => (checksum secret + checksum salt + checksum info + 2 * j) % 256
  sealCore := fun key nonce text aad => text ++ sampleTag key nonce text aad
  openCore := fun key nonce ct aad =>
    let text := ct.take (ct.length - 16)
    if ct.drop (ct.length - 16) = sampleTag key nonce text aad then some text else none

def sampleRand : Rand := { stream := fun k => 7 * k + 3, pos := 0 }

/-- An operating system on which every step of the write succeeds. -/
def sampleEnv : OSEnv :=
  { tempPath := fun path => path ++ ".tmp", createTempFails := false, writeFails := false,
    writeCount := 0, syncFails := false, closeFails := false, renameFails := false,
    syncDirFails := false, chmodFails := false }

def emptyFS : FileSys := fun _ => none

def samplePath : String := "vault.gvlt"

/-- The passphrase "correct horse". -/
def samplePassphrase : Bytes := ascii "correct horse"

/-- The passphrase "wrong". -/
def wrongPassphrase : Bytes := ascii "wrong"

/-- A file system holding one file. -/
def fsWith (path : String) (data : Bytes) : FileSys :=
  emptyFS.set path (some { data := data, perm := 0o600 })

/-- A header that declares zero Argon2 rounds, followed by 16 bytes. -/
def zeroTimeFile : Bytes :=
  headerLayout { sampleHeader with ArgonTime := 0 } ++ List.replicate 16 0

/-- A header that declares zero Argon2 threads, followed by 16 bytes. -/
def zeroThreadsFile : Bytes :=
  headerLayout { sampleHeader with ArgonThreads := 0 } ++ List.replicate 16 0

/-- A header with a 12-byte nonce, followed by 16 bytes. -/
def shortNonceFile : Bytes :=
  headerLayout { sampleHeader with Nonce := List.range 12 } ++ List.replicate 16 0

/-- The error a call returned, if it returned. -/
def Outcome.err? (o : Outcome World) : Option (Option GoError) :=
  match o with
  | .ret w => some w.err
  | .panic => none

/-- The vault a call left behind, if it returned. -/
def Outcome.vault? (o : Outcome World) : Option Vault :=
  match o with
  | .ret w => some w.v
  | .panic => none

/-- The content of the file at `path` after a call, if the call returned and the file exists. -/
def Outcome.file? (o : Outcome World) (path : String) : Option Bytes :=
  match o with
  | .ret w => (w.fs path).map (·.data)
  | .panic => none

/-- The file `Create` writes in the sample run. -/
def sampleCreated : Outcome World :=
  (NewVault samplePath none).Create samplePrimitives goJSON sampleEnv emptyFS sampleRand
    samplePassphrase

/-- The parameters `Open` derives the key from: those of the header. -/
def headerKDF (h : fileHeader) : KDFParams :=
  { Time := h.ArgonTime, Memory := h.ArgonMemory, Threads := h.ArgonThreads, Salt := h.Salt }

/-- The salt `Create` draws in the sample run. -/
def sampleSalt : Bytes := (randBytes sampleRand 16).1

/-- The nonce `Create` draws in the sample run. -/
def sampleNonce : Bytes := (randBytes (randBytes sampleRand 16).2 NonceLen).1

/-- The header `Create` writes in the sample run. -/
def sampleFileHeader : fileHeader :=
  { Flags := 0, KDFAlgo := 0x01, ArgonTime := 3, ArgonMemory := 256 * 1024, ArgonThreads := 1,
    Salt := sampleSalt, Nonce := sampleNonce }

/-- The key the sample primitives derive from a passphrase and the sample header. -/
def sampleKey (pass : Bytes) : Bytes :=
  samplePrimitives.hkdfSha256
    (samplePrimitives.argon2id pass sampleSalt 3 (256 * 1024) 1 MasterKeyLen) [] infoVaultV1 FEKLen

/-- The ciphertext `Create` writes in the sample run: the sealed empty collection. -/
def sampleCiphertext : Bytes :=
  samplePrimitives.sealCore (sampleKey samplePassphrase) sampleNonce
    (jsonMarshal { Entries := [] }) Magic

/-- The file `Create` writes in the sample run. -/
def sampleFile : Bytes := headerLayout sampleFileHeader ++ sampleCiphertext

/-- The values a Go `KDFParams` can hold: `Time` and `Memory` are uint32,
`Threads` is a uint8 and the salt holds bytes. -/
def KDFParams.wellTyped (k : KDFParams) : Prop :=
  k.Time < 2 ^ 32 ∧ k.Memory < 2 ^ 32 ∧ k.Threads < 2 ^ 8 ∧ isBytes k.Salt

instance (k : KDFParams) : Decidable k.wellTyped := by
  unfold KDFParams.wellTyped; infer_instance

/-- What is trusted of the AEAD: the ciphertext is the plaintext's length plus
a 16-byte tag long, and opening what was sealed under the same key, nonce and
associated data returns the plaintext. -/
def Primitives.sealOpenLaw (P : Primitives) : Prop :=
  ∀ key nonce text aad : Bytes,
    (P.sealCore key nonce text aad).length = text.length + 16 ∧
    P.openCore key nonce (P.sealCore key nonce text aad) aad = some text

/-- What is trusted of KDF and AEAD together, for one input handed to them: if
the parameters `k'`, the nonce `nonce'` and the ciphertext `ct'` are not the
ones that were sealed (`k`, `nonce` and `ct`), then the opening under the key
derived from the passphrase and `k'` does not return a plaintext. -/
def Primitives.rejectsChanged (P : Primitives) (pass : Bytes) (k : KDFParams)
    (nonce ct : Bytes) (k' : KDFParams) (nonce' ct' : Bytes) : Prop :=
  (k', nonce', ct') ≠ (k, nonce, ct) →
  ∀ fek pass' text : Bytes,
    DeriveFEKFromPassphrase P pass k' infoVaultV1 = .ret (.ok fek, pass') →
    AEADOpen P fek nonce' Magic ct' ≠ .ret (.ok text)

/-- The world a call left behind, or `d` if it panicked. -/
def Outcome.world (o : Outcome World) (d : World) : World :=
  match o with
  | .ret w => w
  | .panic => d

/-- A world of no interest. -/
def noWorld : World := ⟨none, NewVault "" none, [], emptyFS, sampleRand⟩

/-- The world after `Create` in the sample run. -/
def sampleWorld1 : World := sampleCreated.world noWorld

/-- `Save` in the sample run, after the entries `E` were added in order. -/
def sampleSaved (E : List Entry) : Outcome World :=
  (E.foldl Vault.Add sampleWorld1.v).Save samplePrimitives goJSON sampleEnv sampleWorld1.fs
    sampleWorld1.rand

/-- `Open` with the passphrase of the sample run on a fresh vault, after `sampleSaved`. -/
def sampleReopened (E : List Entry) : Outcome World :=
  (NewVault samplePath none).Open samplePrimitives goJSON ((sampleSaved E).world noWorld).fs
    sampleRand samplePassphrase

/-- `Entry{ID: "1", Title: "\xff"}`: the title is not valid UTF-8. -/
def sampleEntryBadTitle : Entry :=
  { ID := sampleID, Title := [0xFF], Username := [], Secret := [], Notes := [] }

/-- `Entry{ID: "1", Title: "�"}`: the title is the replacement character. -/
def sampleEntryReplaced : Entry :=
  { ID := sampleID, Title := [0xEF, 0xBF, 0xBD], Username := [], Secret := [], Notes := [] }

/-- The key the primitives give for a passphrase and parameters. -/
def derivedKey (P : Primitives) (pass : Bytes) (k : KDFParams) : Bytes :=
  P.hkdfSha256 (P.argon2id pass k.Salt k.Time k.Memory k.Threads MasterKeyLen) [] infoVaultV1 FEKLen

/-- The header `Create` and `Save` build from the parameters and the nonce. -/
def writtenHeader (k : KDFParams) (nonce : Bytes) : fileHeader :=
  { Flags := 0, KDFAlgo := 0x01, ArgonTime := k.Time, ArgonMemory := k.Memory,
    ArgonThreads := k.Threads, Salt := k.Salt, Nonce := nonce }

/-! ### The sample file with one byte changed -/

/-- The header `decodeHeader` returns for the sample file with the salt byte at
offset 20 changed to 0xFF: the third byte of the salt is 0xFF. -/
def changedSaltHeader : fileHeader := { sampleFileHeader with Salt := sampleSalt.set 2 0xFF }

/-- The header `decodeHeader` returns for the sample file with the kdfAlgo byte
at offset 7 changed to 2. -/
def changedAlgoHeader : fileHeader := { sampleFileHeader with KDFAlgo := 2 }

/-! ### What can fail in atomicWriteFile, and sample inputs for it and for decodeHeader -/

/-- The step "create the temporary file" fails: the operating system reports
an error, or there is a file at the path it would create. -/
def createTempFailed (env : OSEnv) (fs : FileSys) (path : String) : Prop :=
  env.createTempFails = true ∨ (fs (env.tempPath path)).isSome = true

instance (env : OSEnv) (fs : FileSys) (path : String) :
    Decidable (createTempFailed env fs path) := by
  unfold createTempFailed; infer_instance

/-- One of the steps up to and including the rename fails. -/
def stepFailed (env : OSEnv) (fs : FileSys) (path : String) : Prop :=
  createTempFailed env fs path ∨ env.writeFails = true ∨ env.syncFails = true ∨
  env.closeFails = true ∨ env.renameFails = true

instance (env : OSEnv) (fs : FileSys) (path : String) :
    Decidable (stepFailed env fs path) := by
  unfold stepFailed; infer_instance

/-- An operating system on which the write to the temporary file fails after 3 bytes. -/
def failingWriteEnv : OSEnv := { sampleEnv with writeFails := true, writeCount := 3 }

/-- An operating system on which only the directory sync and the chmod fail. -/
def failingChmodEnv : OSEnv := { sampleEnv with syncDirFails := true, chmodFails := true }

/-- The first 40 bytes of an encoded header: the 19 + 16 bytes up to the nonce
length, which declares 24 bytes, and 5 bytes of nonce. -/
def truncatedNonceFile : Bytes := (headerLayout sampleHeader).take 40

/-- The header `decodeHeader` returns for `truncatedNonceFile`: the 5 bytes
that were there and 19 zeros. -/
def paddedNonceHeader : fileHeader :=
  { sampleHeader with Nonce := [100, 101, 102, 103, 104] ++ List.replicate 19 0 }

/-! ## Facts about the reader -/

theorem Reader.Len_eq (r : Reader) : r.Len = r.s.length - r.i := by
  unfold Reader.Len
  split <;> omega

theorem Reader.Read_of_lt (r : Reader) (b : Bytes) (h : r.i < r.s.length) :
    r.Read b = .ok ((r.s.drop r.i).take (min b.length (r.s.length - r.i))
                      ++ b.drop (min b.length (r.s.length - r.i)),
                    { s := r.s, i := r.i + min b.length (r.s.length - r.i) }) := by
  unfold Reader.Read
  rw [if_neg (by omega)]
  simp

theorem Reader.Read_of_ge (r : Reader) (b : Bytes) (h : r.s.length ≤ r.i) :
    r.Read b = .error GoError.EOF := by
  unfold Reader.Read
  rw [if_pos (by omega)]

theorem ioReadFull_of_le (r : Reader) (n : Nat) (hn : 0 < n) (h : r.i + n ≤ r.s.length) :
    ioReadFull r n = .ok ((r.s.drop r.i).take n, { s := r.s, i := r.i + n }) := by
  unfold ioReadFull
  simp only [Reader.Len_eq]
  rw [if_neg (by omega), if_neg (by omega)]

theorem ioReadFull_of_ge (r : Reader) (n : Nat) (h : r.s.length ≤ r.i) :
    ioReadFull r n = .error GoError.EOF := by
  unfold ioReadFull
  simp only [Reader.Len_eq]
  rw [if_pos (by omega)]

theorem getD_take_drop (l : Bytes) (i n k : Nat) (hk : k < n) :
    ((l.drop i).take n).getD k 0 = l.getD (i + k) 0 := by
  simp [List.getD_eq_getElem?_getD, List.getElem?_take, hk]

theorem binaryReadU8_of_lt (r : Reader) (h : r.i < r.s.length) :
    binaryReadU8 r = .ok (r.s.getD r.i 0, { s := r.s, i := r.i + 1 }) := by
  unfold binaryReadU8
  rw [ioReadFull_of_le r 1 (by omega) (by omega)]
  simp only [bind, Except.bind, pure, Except.pure]
  rw [getD_take_drop _ _ _ _ (by omega)]
  rfl

theorem binaryReadU8_of_ge (r : Reader) (h : r.s.length ≤ r.i) :
    binaryReadU8 r = .error GoError.EOF := by
  unfold binaryReadU8
  rw [ioReadFull_of_ge r 1 h]
  rfl

theorem binaryReadU16_of_le (r : Reader) (h : r.i + 2 ≤ r.s.length) :
    binaryReadU16 r
      = .ok (r.s.getD r.i 0 * 2 ^ 8 + r.s.getD (r.i + 1) 0, { s := r.s, i := r.i + 2 }) := by
  unfold binaryReadU16
  rw [ioReadFull_of_le r 2 (by omega) (by omega)]
  simp only [bind, Except.bind, pure, Except.pure, getUint16]
  rw [getD_take_drop _ _ _ _ (by omega), getD_take_drop _ _ _ _ (by omega)]
  rfl

theorem binaryReadU32_of_le (r : Reader) (h : r.i + 4 ≤ r.s.length) :
    binaryReadU32 r
      = .ok (r.s.getD r.i 0 * 2 ^ 24 + r.s.getD (r.i + 1) 0 * 2 ^ 16
               + r.s.getD (r.i + 2) 0 * 2 ^ 8 + r.s.getD (r.i + 3) 0,
             { s := r.s, i := r.i + 4 }) := by
  unfold binaryReadU32
  rw [ioReadFull_of_le r 4 (by omega) (by omega)]
  simp only [bind, Except.bind, pure, Except.pure, getUint32]
  rw [getD_take_drop _ _ _ _ (by omega), getD_take_drop _ _ _ _ (by omega),
    getD_take_drop _ _ _ _ (by omega), getD_take_drop _ _ _ _ (by omega)]
  rfl

theorem decodeHeader_eq_closed (raw : Bytes) : decodeHeader raw = decodeHeaderClosed raw := by
  unfold decodeHeader decodeHeaderClosed
  by_cases hlen : raw.length < 19
  · simp [hlen]; rfl
  · rw [if_neg hlen, if_neg hlen]
    simp only [NewReader, pure_bind, makeBytes]
    rw [Reader.Read_of_lt _ _ (by dsimp only; omega)]
    simp only [bind, Except.bind, List.length_replicate, List.drop_zero, Nat.sub_zero,
      Nat.zero_add]
    have h4 : min 4 raw.length = 4 := by omega
    simp only [h4, List.drop_replicate, Nat.sub_self, List.replicate_zero, List.append_nil]
    by_cases hm : raw.take 4 = Magic
    · rw [if_neg (not_not.mpr hm), if_neg (not_not.mpr hm)]
      rw [binaryReadU8_of_lt _ (by dsimp only; omega)]
      simp only []
      by_cases hv : raw.getD 4 0 = Version
      · rw [if_neg (not_not.mpr hv), if_neg (not_not.mpr hv)]
        rw [binaryReadU16_of_le _ (by dsimp only; omega)]
        simp only []
        rw [binaryReadU8_of_lt _ (by dsimp only; omega)]
        simp only []
        rw [binaryReadU32_of_le _ (by dsimp only; omega)]
        simp only []
        rw [binaryReadU32_of_le _ (by dsimp only; omega)]
        simp only []
        rw [binaryReadU8_of_lt _ (by dsimp only; omega)]
        simp only []
        rw [binaryReadU8_of_lt _ (by dsimp only; omega)]
        simp only []
        rw [Reader.Read_of_lt _ _ (by dsimp only; omega)]
        simp only [List.length_replicate, List.drop_replicate, Nat.reduceAdd]
        by_cases hs : raw.length ≤ 18 + raw.getD 17 0
        · rw [if_pos hs, binaryReadU8_of_ge _ (by dsimp only; omega)]
        · rw [if_neg hs]
          have hmin : min (raw.getD 17 0) (raw.length - 18) = raw.getD 17 0 := by omega
          simp only [hmin, Nat.sub_self, List.replicate_zero, List.append_nil]
          rw [binaryReadU8_of_lt _ (by dsimp only; omega)]
          simp only []
          by_cases hn : raw.length ≤ 19 + raw.getD 17 0
          · rw [if_pos hn, Reader.Read_of_ge _ _ (by dsimp only; omega)]
          · rw [if_neg hn, Reader.Read_of_lt _ _ (by dsimp only; omega)]
            simp only [List.length_replicate, List.drop_replicate, List.length_drop,
              Reader.Len_eq, pure, Except.pure]
            have e1 : 18 + raw.getD 17 0 + 1 = 19 + raw.getD 17 0 := by omega
            simp only [e1]
            congr 3
            omega
      · rw [if_pos hv, if_pos hv]
    · rw [if_pos hm, if_pos hm]

/-! ## The header codec -/

theorem bigEndian_two (v : Nat) : bigEndian 2 v = putUint16 v := by
  simp [bigEndian, putUint16]

theorem bigEndian_four (v : Nat) : bigEndian 4 v = putUint32 v := by
  simp only [bigEndian, putUint32, List.nil_append, List.cons_append, Nat.div_div_eq_div_mul]
  norm_num

theorem encodeHeader_eq (h : fileHeader) :
    encodeHeader h =
      if h.Salt.length > 255 then .error GoError.saltTooLong
      else if h.Nonce.length > 255 then .error GoError.nonceTooLong
      else .ok (headerLayout h) := by
  unfold encodeHeader headerLayout
  simp only [bufWriteString, bufWriteByte, binaryWriteU16, binaryWriteU32, bufWrite,
    bigEndian_two, bigEndian_four, bind, Except.bind, pure, Except.pure, List.nil_append]
  by_cases hs : h.Salt.length > 255
  · simp only [hs, if_true]
  · simp only [hs, if_false]
    by_cases hn : h.Nonce.length > 255
    · simp only [hn, if_true]
    · simp only [hn, if_false]
      have e1 : h.Salt.length % 256 = h.Salt.length := Nat.mod_eq_of_lt (by omega)
      have e2 : h.Nonce.length % 256 = h.Nonce.length := Nat.mod_eq_of_lt (by omega)
      simp [e1, e2, Version]

theorem headerLayout_eq (h : fileHeader) :
    headerLayout h =
      [0x47, 0x56, 0x4C, 0x54, 0x01, h.Flags / 2 ^ 8 % 256, h.Flags % 256, h.KDFAlgo,
        h.ArgonTime / 2 ^ 24 % 256, h.ArgonTime / 2 ^ 16 % 256, h.ArgonTime / 2 ^ 8 % 256,
        h.ArgonTime % 256,
        h.ArgonMemory / 2 ^ 24 % 256, h.ArgonMemory / 2 ^ 16 % 256, h.ArgonMemory / 2 ^ 8 % 256,
        h.ArgonMemory % 256,
        h.ArgonThreads, h.Salt.length] ++ (h.Salt ++ (h.Nonce.length :: h.Nonce)) := by
  simp [headerLayout, bigEndian_two, bigEndian_four, putUint16, putUint32, Magic]

theorem headerLayout_length (h : fileHeader) :
    (headerLayout h).length = 19 + h.Salt.length + h.Nonce.length := by
  rw [headerLayout_eq]
  simp only [List.length_append, List.length_cons, List.length_nil]
  omega

/-- C2. `encodeHeader` fails exactly when the salt or the nonce is longer than
255 bytes, and otherwise returns the documented layout, which is
`19 + len(Salt) + len(Nonce)` bytes long, with the salt at offset 18 and the
nonce at offset `19 + len(Salt)`. -/
theorem encodeHeader_layout (h : fileHeader) :
    ((∃ e, encodeHeader h = .error e) ↔ (h.Salt.length > 255 ∨ h.Nonce.length > 255)) ∧
    (encodeHeader h =
      if h.Salt.length > 255 ∨ h.Nonce.length > 255 then
        .error (if h.Salt.length > 255 then GoError.saltTooLong else GoError.nonceTooLong)
      else .ok (headerLayout h)) ∧
    (headerLayout h).length = 19 + h.Salt.length + h.Nonce.length ∧
    ((headerLayout h).drop 18).take h.Salt.length = h.Salt ∧
    ((headerLayout h).drop (19 + h.Salt.length)).take h.Nonce.length = h.Nonce := by
  refine ⟨?_, ?_, headerLayout_length h, ?_, ?_⟩
  · rw [encodeHeader_eq]
    by_cases hs : h.Salt.length > 255
    · simp [hs]
    · by_cases hn : h.Nonce.length > 255
      · simp [hs, hn]
      · simp [hs, hn]
  · rw [encodeHeader_eq]
    by_cases hs : h.Salt.length > 255
    · simp [hs]
    · by_cases hn : h.Nonce.length > 255
      · simp [hs, hn]
      · simp [hs, hn]
  · rw [headerLayout_eq]
    simp
  · rw [headerLayout_eq]
    have : 19 + h.Salt.length = 18 + (h.Salt.length + 1) := by omega
    rw [this, ← List.drop_drop]
    simp

/-- The bytes a 16-bit big-endian field was written from. -/
theorem getUint16_putUint16 (v : Nat) (hv : v < 2 ^ 16) :
    v / 2 ^ 8 % 256 * 2 ^ 8 + v % 256 = v := by
  omega

theorem getUint32_putUint32 (v : Nat) (hv : v < 2 ^ 32) :
    v / 2 ^ 24 % 256 * 2 ^ 24 + v / 2 ^ 16 % 256 * 2 ^ 16 + v / 2 ^ 8 % 256 * 2 ^ 8 + v % 256
      = v := by
  omega

/-- Decoding what `encodeHeader` wrote, followed by a ciphertext: the header and
the ciphertext come back, provided the nonce and the ciphertext are not both
empty. -/
theorem decodeHeader_headerLayout (h : fileHeader) (ct : Bytes)
    (hF : h.Flags < 2 ^ 16) (hT : h.ArgonTime < 2 ^ 32) (hM : h.ArgonMemory < 2 ^ 32)
    (hne : h.Nonce ≠ [] ∨ ct ≠ []) :
    decodeHeader (headerLayout h ++ ct) = .ok (h, ct) := by
  rw [decodeHeader_eq_closed, headerLayout_eq]
  unfold decodeHeaderClosed
  have hlen : 0 < h.Nonce.length + ct.length := by
    rcases hne with hne | hne
    · have := List.length_pos.mpr hne; omega
    · have := List.length_pos.mpr hne; omega
  rw [if_neg (by simp only [List.length_append, List.length_cons]; omega),
    if_neg (by simp [Magic]), if_neg (by simp [Version])]
  simp only [List.cons_append, List.getD_cons_succ, List.getD_cons_zero, List.nil_append,
    List.length_cons, List.length_append, List.append_assoc]
  rw [if_neg (by omega), if_neg (by omega)]
  have e18 : 18 + h.Salt.length = h.Salt.length + 18 := by omega
  have e19 : 19 + h.Salt.length = h.Salt.length + 1 + 18 := by omega
  have g1 : (h.Salt ++ (h.Nonce.length :: (h.Nonce ++ ct))).getD (h.Salt.length) 0
      = h.Nonce.length := by
    rw [List.getD_eq_getElem?_getD, List.getElem?_append_right (le_refl _)]
    simp
  have d1 : (h.Salt ++ (h.Nonce.length :: (h.Nonce ++ ct))).drop (h.Salt.length + 1)
      = h.Nonce ++ ct := by
    simp
  simp only [e18, e19, List.getD_cons_succ, List.drop_succ_cons, List.drop_zero, g1]
  have e20 : h.Salt.length + 1 + 18 + min h.Nonce.length (h.Nonce ++ ct).length
      = (h.Salt.length + 1 + h.Nonce.length) + 18 := by
    simp only [List.length_append]; omega
  have d2 : (h.Salt ++ (h.Nonce.length :: (h.Nonce ++ ct))).drop
      (h.Salt.length + 1 + h.Nonce.length) = ct := by
    rw [← List.drop_drop, d1]
    simp
  have hmin : min h.Nonce.length (h.Nonce ++ ct).length = h.Nonce.length := by
    simp only [List.length_append]; omega
  have e21 : h.Salt.length + 1 + 18 + h.Nonce.length
      = (h.Salt.length + 1 + h.Nonce.length) + 18 := by omega
  simp only [d1, e20, List.drop_succ_cons, List.drop_zero, d2, hmin, Nat.sub_self,
    List.replicate_zero, List.append_nil, List.take_left', List.take_left,
    getUint16_putUint16 _ hF, getUint32_putUint32 _ hT, getUint32_putUint32 _ hM, e21]

/-- C1. A header with an empty nonce and no ciphertext after it is encoded
by `encodeHeader` (19 + 16 bytes) and the result is not decoded again:
`decodeHeader` returns `io.EOF`. -/
theorem decodeHeader_encodeHeader_empty_nonce :
    sampleHeaderEmptyNonce.Salt.length ≤ 255 ∧ sampleHeaderEmptyNonce.Nonce.length ≤ 255 ∧
    (encodeHeader sampleHeaderEmptyNonce).toOption.isSome = true ∧
    ((encodeHeader sampleHeaderEmptyNonce).bind fun hdr => decodeHeader (hdr ++ []))
      = .error GoError.EOF := by
  refine ⟨by decide, by decide, by rfl, by rfl⟩

/-- C3. An input shorter than 19 bytes, or not starting with "GVLT", or with a
byte other than 0x01 at offset 4, is rejected with `ErrCorrupt`; for the short
input this holds whatever lengths the input declares. -/
theorem decodeHeader_rejects_malformed (raw : Bytes)
    (h : raw.length < 19 ∨ raw.take 4 ≠ Magic ∨ raw.getD 4 0 ≠ 0x01) :
    decodeHeader raw = .error GoError.ErrCorrupt := by
  rw [decodeHeader_eq_closed]
  unfold decodeHeaderClosed Version
  by_cases h1 : raw.length < 19
  · rw [if_pos h1]
  · rw [if_neg h1]
    by_cases h2 : raw.take 4 ≠ Magic
    · rw [if_pos h2]
    · rw [if_neg h2]
      rcases h with h | h | h
      · exact absurd h h1
      · exact absurd h h2
      · rw [if_pos h]

theorem decodeHeader_rejects_malformed_witness :
    ([0x47, 0x56, 0x4C, 0x54, 0x02] : Bytes).length < 19 ∧
    decodeHeader [0x47, 0x56, 0x4C, 0x54, 0x02] = .error GoError.ErrCorrupt :=
  ⟨by decide, decodeHeader_rejects_malformed _ (Or.inl (by decide))⟩

/-! ## CRUD -/

theorem getLoop_append (id : Bytes) (l₁ l₂ : List Entry) :
    getLoop id (l₁ ++ l₂) = (getLoop id l₁).orElse (fun _ => getLoop id l₂) := by
  induction l₁ with
  | nil => rfl
  | cons x xs ih =>
    simp only [List.cons_append, getLoop]
    by_cases hx : x.ID = id
    · simp [hx]
    · simp [hx, ih]

theorem getLoop_eq_none (id : Bytes) (l : List Entry) (h : ∀ x ∈ l, x.ID ≠ id) :
    getLoop id l = none := by
  induction l with
  | nil => rfl
  | cons x xs ih =>
    have hx : x.ID ≠ id := h x (List.mem_cons_self _ _)
    simp only [getLoop, if_neg hx]
    exact ih (fun y hy => h y (List.mem_cons_of_mem _ hy))

theorem getLoop_some_id (id : Bytes) (l : List Entry) (x : Entry) (h : getLoop id l = some x) :
    x.ID = id ∧ x ∈ l := by
  induction l with
  | nil => simp [getLoop] at h
  | cons y ys ih =>
    simp only [getLoop] at h
    by_cases hy : y.ID = id
    · rw [if_pos hy] at h
      cases h
      exact ⟨hy, List.mem_cons_self _ _⟩
    · rw [if_neg hy] at h
      exact ⟨(ih h).1, List.mem_cons_of_mem _ (ih h).2⟩

/-- C8, as the claim states it, fails: with an entry of ID "1" in the vault,
adding another entry with ID "1" and asking for "1" returns the older entry. -/
theorem add_then_get_duplicate_id :
    sampleEntryDup.ID = sampleEntry.ID ∧
    (((NewVault "vault.gvlt" none).Add sampleEntry).Add sampleEntryDup).Get sampleEntryDup.ID
      = some sampleEntry ∧
    (((NewVault "vault.gvlt" none).Add sampleEntry).Add sampleEntryDup).Get sampleEntryDup.ID
      ≠ some sampleEntryDup := by
  decide

/-- C8, amended. After `Add(e)` the list is the earlier list followed by `e`,
and `Get(e.ID)` returns an entry with that ID: the first earlier entry with the
ID of `e` if there is one, and `e` itself when no earlier entry has that ID. -/
theorem add_then_get (v : Vault) (e : Entry) :
    (v.Add e).List = v.List ++ [e] ∧
    (v.Add e).Get e.ID = some ((v.Get e.ID).getD e) ∧
    (∃ x, (v.Add e).Get e.ID = some x ∧ x.ID = e.ID) ∧
    ((∀ x ∈ v.List, x.ID ≠ e.ID) → (v.Add e).Get e.ID = some e) := by
  have key : (v.Add e).Get e.ID = some ((v.Get e.ID).getD e) := by
    simp only [Vault.Get, Vault.Add, getLoop_append]
    cases hg : getLoop e.ID v.data.Entries with
    | none => simp [getLoop]
    | some x => simp
  refine ⟨rfl, key, ?_, ?_⟩
  · refine ⟨_, key, ?_⟩
    cases hg : v.Get e.ID with
    | none => rfl
    | some x => exact (getLoop_some_id _ _ _ hg).1
  · intro h
    rw [key]
    have : v.Get e.ID = none := getLoop_eq_none _ _ h
    rw [this]
    rfl

theorem add_then_get_witness :
    ((NewVault "vault.gvlt" none).Add sampleEntry).List = [sampleEntry] ∧
    ((NewVault "vault.gvlt" none).Add sampleEntry).Get sampleID = some sampleEntry :=
  ⟨(add_then_get (NewVault "vault.gvlt" none) sampleEntry).1,
   (add_then_get (NewVault "vault.gvlt" none) sampleEntry).2.2.2 (by decide)⟩

theorem deleteLoop_eq (id : Bytes) (rest pre : List Entry) :
    deleteLoop (pre ++ rest) id pre.length rest
      = pre ++ rest.eraseP (fun e => decide (e.ID = id)) := by
  induction rest generalizing pre with
  | nil => simp [deleteLoop]
  | cons x xs ih =>
    simp only [deleteLoop]
    by_cases hx : x.ID = id
    · rw [if_pos hx]
      simp [List.eraseP_cons, hx, List.drop_append]
    · rw [if_neg hx]
      have := ih (pre ++ [x])
      simp only [List.append_assoc, List.singleton_append, List.length_append,
        List.length_singleton] at this
      rw [this]
      simp [List.eraseP_cons, hx]

theorem Delete_entries (v : Vault) (id : Bytes) :
    (v.Delete id).List = v.List.eraseP (fun e => decide (e.ID = id)) := by
  have := deleteLoop_eq id v.data.Entries []
  simpa [Vault.Delete, Vault.List] using this

theorem getLoop_eraseP_none (id : Bytes) (l : List Entry)
    (h : (l.filter (fun e => decide (e.ID = id))).length ≤ 1) :
    getLoop id (l.eraseP (fun e => decide (e.ID = id))) = none := by
  induction l with
  | nil => rfl
  | cons x xs ih =>
    by_cases hx : x.ID = id
    · have hf : (xs.filter (fun e => decide (e.ID = id))).length = 0 := by
        simp only [List.filter_cons, hx, decide_True, if_true, List.length_cons] at h
        omega
      have hnil : xs.filter (fun e => decide (e.ID = id)) = [] := List.length_eq_zero.mp hf
      have hall : ∀ y ∈ xs, y.ID ≠ id := by
        intro y hy hyid
        have : y ∈ xs.filter (fun e => decide (e.ID = id)) := by
          simp [List.mem_filter, hy, hyid]
        rw [hnil] at this
        exact List.not_mem_nil _ this
      simp only [List.eraseP_cons, hx, decide_True, cond_true]
      exact getLoop_eq_none _ _ hall
    · have hf : (xs.filter (fun e => decide (e.ID = id))).length ≤ 1 := by
        simpa [List.filter_cons, hx] using h
      simp only [List.eraseP_cons, hx, decide_False, cond_false, getLoop, if_false]
      exact ih hf

/-- C9, as the claim states it, fails: with two entries of ID "1" in the
vault, `Delete("1")` removes the first and `Get("1")` returns the second. -/
theorem delete_then_get_duplicate_id :
    ((((NewVault "vault.gvlt" none).Add sampleEntry).Add sampleEntryDup).Delete sampleID).Get
      sampleID = some sampleEntryDup := by
  decide

/-- C9, amended. `Delete(id)` removes the first entry whose ID is `id` and
keeps the others in their order; it changes nothing when no entry has that ID;
afterwards `Get(id)` returns what the entries after the removed one hold for
`id`, which is not-found when at most one entry had that ID. -/
theorem delete_then_get (v : Vault) (id : Bytes) :
    (v.Delete id).List = v.List.eraseP (fun e => decide (e.ID = id)) ∧
    (∀ pre x post, v.List = pre ++ x :: post → (∀ y ∈ pre, y.ID ≠ id) → x.ID = id →
      (v.Delete id).List = pre ++ post ∧ (v.Delete id).Get id = getLoop id post) ∧
    ((∀ y ∈ v.List, y.ID ≠ id) → v.Delete id = v) ∧
    ((v.List.filter (fun e => decide (e.ID = id))).length ≤ 1 → (v.Delete id).Get id = none) := by
  have hD := Delete_entries v id
  refine ⟨hD, ?_, ?_, ?_⟩
  · intro pre x post hl hpre hx
    have he : (v.Delete id).List = pre ++ post := by
      rw [hD, hl, List.eraseP_append_right _ (by simpa using hpre)]
      simp [List.eraseP_cons, hx]
    refine ⟨he, ?_⟩
    have : (v.Delete id).Get id = getLoop id (v.Delete id).List := rfl
    rw [this, he, getLoop_append, getLoop_eq_none _ _ hpre]
    rfl
  · intro h
    have he : (v.Delete id).List = v.List := by
      rw [hD]
      exact List.eraseP_of_forall_not (by simpa using h)
    cases v with
    | mk fn kdf fek locked data =>
      cases data with
      | mk entries =>
        simp only [Vault.Delete, Vault.List] at he ⊢
        rw [he]
  · intro h
    have : (v.Delete id).Get id = getLoop id (v.Delete id).List := rfl
    rw [this, hD]
    exact getLoop_eraseP_none id _ h

theorem delete_then_get_witness :
    (((NewVault "vault.gvlt" none).Add sampleEntry).Delete sampleID).List = [] ∧
    (((NewVault "vault.gvlt" none).Add sampleEntry).Delete sampleID).Get sampleID = none :=
  ⟨((delete_then_get ((NewVault "vault.gvlt" none).Add sampleEntry) sampleID).2.1
      [] sampleEntry [] rfl (by simp) rfl).1,
   (delete_then_get ((NewVault "vault.gvlt" none).Add sampleEntry) sampleID).2.2.2 (by decide)⟩

/-! ## Open -/

theorem Open_read_error (P : Primitives) (J : JSONCodec) (fs : FileSys) (rand : Rand) (v : Vault)
    (pass : Bytes) (e : GoError) (hr : osReadFile fs v.Filename = .error e) :
    v.Open P J fs rand pass = .ret ⟨some e, v, pass, fs, rand⟩ := by
  unfold Vault.Open
  rw [hr]

theorem Open_decode_error (P : Primitives) (J : JSONCodec) (fs : FileSys) (rand : Rand)
    (v : Vault) (pass raw : Bytes) (e : GoError)
    (hr : osReadFile fs v.Filename = .ok raw) (hd : decodeHeader raw = .error e) :
    v.Open P J fs rand pass = .ret ⟨some GoError.ErrCorrupt, v, pass, fs, rand⟩ := by
  unfold Vault.Open
  rw [hr]
  simp only [hd]

theorem Open_derive_panic (P : Primitives) (J : JSONCodec) (fs : FileSys) (rand : Rand)
    (v : Vault) (pass raw ct : Bytes) (h : fileHeader)
    (hr : osReadFile fs v.Filename = .ok raw) (hd : decodeHeader raw = .ok (h, ct))
    (hk : DeriveFEKFromPassphrase P pass (headerKDF h) infoVaultV1 = .panic) :
    v.Open P J fs rand pass = .panic := by
  unfold Vault.Open
  rw [hr]
  simp only [hd]
  unfold headerKDF at hk
  simp only [hk]

theorem Open_derive_error (P : Primitives) (J : JSONCodec) (fs : FileSys) (rand : Rand)
    (v : Vault) (pass raw ct pass' : Bytes) (h : fileHeader) (e : GoError)
    (hr : osReadFile fs v.Filename = .ok raw) (hd : decodeHeader raw = .ok (h, ct))
    (hk : DeriveFEKFromPassphrase P pass (headerKDF h) infoVaultV1 = .ret (.error e, pass')) :
    v.Open P J fs rand pass
      = .ret ⟨some e, { v with KDF := headerKDF h }, pass', fs, rand⟩ := by
  unfold Vault.Open
  rw [hr]
  simp only [hd]
  unfold headerKDF at hk
  simp only [hk]
  rfl

theorem Open_aead_panic (P : Primitives) (J : JSONCodec) (fs : FileSys) (rand : Rand)
    (v : Vault) (pass raw ct fek pass' : Bytes) (h : fileHeader)
    (hr : osReadFile fs v.Filename = .ok raw) (hd : decodeHeader raw = .ok (h, ct))
    (hk : DeriveFEKFromPassphrase P pass (headerKDF h) infoVaultV1 = .ret (.ok fek, pass'))
    (ha : AEADOpen P fek h.Nonce Magic ct = .panic) :
    v.Open P J fs rand pass = .panic := by
  unfold Vault.Open
  rw [hr]
  simp only [hd]
  unfold headerKDF at hk
  simp only [hk, ha]

theorem Open_aead_error (P : Primitives) (J : JSONCodec) (fs : FileSys) (rand : Rand)
    (v : Vault) (pass raw ct fek pass' : Bytes) (h : fileHeader) (e : GoError)
    (hr : osReadFile fs v.Filename = .ok raw) (hd : decodeHeader raw = .ok (h, ct))
    (hk : DeriveFEKFromPassphrase P pass (headerKDF h) infoVaultV1 = .ret (.ok fek, pass'))
    (ha : AEADOpen P fek h.Nonce Magic ct = .ret (.error e)) :
    v.Open P J fs rand pass
      = .ret ⟨some GoError.ErrAuthFailed, { v with KDF := headerKDF h, FEK := fek }, pass',
          fs, rand⟩ := by
  unfold Vault.Open
  rw [hr]
  simp only [hd]
  unfold headerKDF at hk
  simp only [hk, ha]
  rfl

theorem Open_aead_ok (P : Primitives) (J : JSONCodec) (fs : FileSys) (rand : Rand)
    (v : Vault) (pass raw ct fek pass' pt : Bytes) (h : fileHeader)
    (hr : osReadFile fs v.Filename = .ok raw) (hd : decodeHeader raw = .ok (h, ct))
    (hk : DeriveFEKFromPassphrase P pass (headerKDF h) infoVaultV1 = .ret (.ok fek, pass'))
    (ha : AEADOpen P fek h.Nonce Magic ct = .ret (.ok pt)) :
    v.Open P J fs rand pass
      = .ret ⟨(J.Unmarshal pt v.data).1,
          { v with KDF := headerKDF h, FEK := fek, data := (J.Unmarshal pt v.data).2 }, pass',
          fs, rand⟩ := by
  unfold Vault.Open
  rw [hr]
  simp only [hd]
  unfold headerKDF at hk
  simp only [hk, ha]
  rfl

set_option maxRecDepth 100000 in
theorem sampleCreated_file : sampleCreated.file? samplePath = some sampleFile := by rfl

theorem decodeHeader_sampleFile :
    decodeHeader sampleFile = .ok (sampleFileHeader, sampleCiphertext) := by rfl

theorem argon2IDKey_zero_time (P : Primitives) (pw salt : Bytes) (m th n : Nat) :
    argon2IDKey P pw salt 0 m th n = .panic := by
  simp [argon2IDKey]

theorem argon2IDKey_zero_threads (P : Primitives) (pw salt : Bytes) (t m n : Nat) :
    argon2IDKey P pw salt t m 0 n = .panic := by
  unfold argon2IDKey
  split <;> simp

theorem AEADOpen_bad_nonce (P : Primitives) (fek nonce aad ct : Bytes) (hn : nonce.length ≠ 24) :
    AEADOpen P fek nonce aad ct = .panic := by
  unfold AEADOpen xchachaOpen
  by_cases hk : fek.length ≠ 32
  · rw [if_pos hk]
  · rw [if_neg hk, if_pos hn]

theorem DeriveFEK_not_panic (P : Primitives) (pass : Bytes) (k : KDFParams) (info : Bytes)
    (ht : 1 ≤ k.Time) (hth : 1 ≤ k.Threads) :
    DeriveFEKFromPassphrase P pass k info
      = .ret (.ok (P.hkdfSha256 (P.argon2id pass k.Salt k.Time k.Memory k.Threads MasterKeyLen)
          [] info FEKLen), zero pass) := by
  unfold DeriveFEKFromPassphrase argon2IDKey hkdfReadFull
  rw [if_neg (by omega), if_neg (by omega)]
  simp [FEKLen]

/-- C6. `Open` panics on files that `decodeHeader` accepts: a header that
declares zero Argon2 rounds, one that declares zero threads, and one whose
nonce is 12 bytes long; this holds whatever the primitives compute, whatever the
passphrase. -/
theorem Open_panics_on_unchecked_header (P : Primitives) (J : JSONCodec) (rand : Rand)
    (pass : Bytes) :
    (∃ h ct, decodeHeader zeroTimeFile = .ok (h, ct) ∧ h.ArgonTime = 0) ∧
    (NewVault samplePath none).Open P J (fsWith samplePath zeroTimeFile) rand pass = .panic ∧
    (∃ h ct, decodeHeader zeroThreadsFile = .ok (h, ct) ∧ h.ArgonThreads = 0) ∧
    (NewVault samplePath none).Open P J (fsWith samplePath zeroThreadsFile) rand pass = .panic ∧
    (∃ h ct, decodeHeader shortNonceFile = .ok (h, ct) ∧ h.Nonce.length = 12) ∧
    (NewVault samplePath none).Open P J (fsWith samplePath shortNonceFile) rand pass = .panic := by
  have d1 : decodeHeader zeroTimeFile
      = .ok ({ sampleHeader with ArgonTime := 0 }, List.replicate 16 0) := by rfl
  have d2 : decodeHeader zeroThreadsFile
      = .ok ({ sampleHeader with ArgonThreads := 0 }, List.replicate 16 0) := by rfl
  have d3 : decodeHeader shortNonceFile
      = .ok ({ sampleHeader with Nonce := List.range 12 }, List.replicate 16 0) := by rfl
  refine ⟨⟨_, _, d1, rfl⟩, ?_, ⟨_, _, d2, rfl⟩, ?_, ⟨_, _, d3, rfl⟩, ?_⟩
  · refine Open_derive_panic P J _ rand _ pass zeroTimeFile _ _ (by rfl) d1 ?_
    unfold DeriveFEKFromPassphrase headerKDF
    simp only [argon2IDKey_zero_time]
  · refine Open_derive_panic P J _ rand _ pass zeroThreadsFile _ _ (by rfl) d2 ?_
    unfold DeriveFEKFromPassphrase headerKDF
    simp only [argon2IDKey_zero_threads]
  · refine Open_aead_panic P J _ rand _ pass shortNonceFile _ _ (zero pass) _ (by rfl) d3
      (DeriveFEK_not_panic P pass _ _ (by decide) (by decide)) ?_
    exact AEADOpen_bad_nonce P _ _ _ _ (by decide)

/-- C7. When the file was read: if `decodeHeader` fails, with whatever error,
`Open` returns `ErrCorrupt`; if the header decodes, the key is derived and the
AEAD opening of the remaining bytes under that key, the header's nonce and the
magic tag returns an error, `Open` returns `ErrAuthFailed`, so it does not
succeed. -/
theorem Open_error_classification (P : Primitives) (J : JSONCodec) (fs : FileSys) (rand : Rand)
    (v : Vault) (pass raw : Bytes) (hr : osReadFile fs v.Filename = .ok raw) :
    (∀ e, decodeHeader raw = .error e →
      (v.Open P J fs rand pass).err? = some (some GoError.ErrCorrupt)) ∧
    (∀ h ct fek pass' e, decodeHeader raw = .ok (h, ct) →
      DeriveFEKFromPassphrase P pass (headerKDF h) infoVaultV1 = .ret (.ok fek, pass') →
      AEADOpen P fek h.Nonce Magic ct = .ret (.error e) →
      (v.Open P J fs rand pass).err? = some (some GoError.ErrAuthFailed) ∧
      (v.Open P J fs rand pass).err? ≠ some none) := by
  refine ⟨?_, ?_⟩
  · intro e hd
    rw [Open_decode_error P J fs rand v pass raw e hr hd]
    rfl
  · intro h ct fek pass' e hd hk ha
    rw [Open_aead_error P J fs rand v pass raw ct fek pass' h e hr hd hk ha]
    exact ⟨rfl, by simp [Outcome.err?]⟩

set_option maxRecDepth 100000 in
theorem Open_error_classification_witness :
    ((NewVault samplePath none).Open samplePrimitives goJSON (fsWith samplePath [1, 2, 3])
        sampleRand samplePassphrase).err? = some (some GoError.ErrCorrupt) ∧
    ((NewVault samplePath none).Open samplePrimitives goJSON (fsWith samplePath sampleFile)
        sampleRand wrongPassphrase).err? = some (some GoError.ErrAuthFailed) :=
  ⟨(Open_error_classification samplePrimitives goJSON (fsWith samplePath [1, 2, 3]) sampleRand
      (NewVault samplePath none) samplePassphrase [1, 2, 3] (by rfl)).1
      GoError.ErrCorrupt (by rfl),
   ((Open_error_classification samplePrimitives goJSON (fsWith samplePath sampleFile) sampleRand
      (NewVault samplePath none) wrongPassphrase sampleFile (by rfl)).2
      sampleFileHeader sampleCiphertext (sampleKey wrongPassphrase) (zero wrongPassphrase)
      GoError.errOpen decodeHeader_sampleFile (by rfl) (by rfl)).1⟩

set_option maxRecDepth 100000 in
/-- C10, as the claim states it, fails: opening the sample file with the
passphrase "wrong" on a fresh vault returns `ErrAuthFailed`, and afterwards the
vault holds the 32-byte key derived from that passphrase, not wiped. -/
theorem Open_auth_failure_retains_key :
    (NewVault samplePath none).FEK = [] ∧
    ((NewVault samplePath none).Open samplePrimitives goJSON (fsWith samplePath sampleFile)
        sampleRand wrongPassphrase).err? = some (some GoError.ErrAuthFailed) ∧
    (((NewVault samplePath none).Open samplePrimitives goJSON (fsWith samplePath sampleFile)
        sampleRand wrongPassphrase).vault?.map (·.FEK)) = some (sampleKey wrongPassphrase) ∧
    (sampleKey wrongPassphrase).length = 32 ∧
    ¬ (∀ b ∈ sampleKey wrongPassphrase, b = 0) := by
  refine ⟨rfl, by rfl, by rfl, by rfl, by decide⟩

/-- C10, amended. What `Open` leaves in the vault when it returns an error:
after a read error or `ErrCorrupt` the vault is as it was before the call (its
FEK field too); once the key is derived, the FEK field holds that key when
`Open` returns, be it with `ErrAuthFailed`, with a deserialisation error or
with success: `Open` does not wipe it. -/
theorem Open_error_leaves_key (P : Primitives) (J : JSONCodec) (fs : FileSys) (rand : Rand)
    (v : Vault) (pass : Bytes) :
    (∀ e, osReadFile fs v.Filename = .error e →
      (v.Open P J fs rand pass).err? = some (some e) ∧
      (v.Open P J fs rand pass).vault? = some v) ∧
    (∀ raw e, osReadFile fs v.Filename = .ok raw → decodeHeader raw = .error e →
      (v.Open P J fs rand pass).err? = some (some GoError.ErrCorrupt) ∧
      (v.Open P J fs rand pass).vault? = some v) ∧
    (∀ raw h ct fek pass', osReadFile fs v.Filename = .ok raw → decodeHeader raw = .ok (h, ct) →
      DeriveFEKFromPassphrase P pass (headerKDF h) infoVaultV1 = .ret (.ok fek, pass') →
      (∀ e, AEADOpen P fek h.Nonce Magic ct = .ret (.error e) →
        (v.Open P J fs rand pass).err? = some (some GoError.ErrAuthFailed) ∧
        (v.Open P J fs rand pass).vault?.map (·.FEK) = some fek) ∧
      (∀ pt, AEADOpen P fek h.Nonce Magic ct = .ret (.ok pt) →
        (v.Open P J fs rand pass).err? = some (J.Unmarshal pt v.data).1 ∧
        (v.Open P J fs rand pass).vault?.map (·.FEK) = some fek)) := by
  refine ⟨?_, ?_, ?_⟩
  · intro e hr
    rw [Open_read_error P J fs rand v pass e hr]
    exact ⟨rfl, rfl⟩
  · intro raw e hr hd
    rw [Open_decode_error P J fs rand v pass raw e hr hd]
    exact ⟨rfl, rfl⟩
  · intro raw h ct fek pass' hr hd hk
    refine ⟨?_, ?_⟩
    · intro e ha
      rw [Open_aead_error P J fs rand v pass raw ct fek pass' h e hr hd hk ha]
      exact ⟨rfl, rfl⟩
    · intro pt ha
      rw [Open_aead_ok P J fs rand v pass raw ct fek pass' pt h hr hd hk ha]
      exact ⟨rfl, rfl⟩

set_option maxRecDepth 100000 in
theorem Open_error_leaves_key_witness :
    ((NewVault samplePath none).Open samplePrimitives goJSON (fsWith samplePath sampleFile)
        sampleRand wrongPassphrase).vault?.map (·.FEK) = some (sampleKey wrongPassphrase) :=
  (((Open_error_leaves_key samplePrimitives goJSON (fsWith samplePath sampleFile) sampleRand
      (NewVault samplePath none) wrongPassphrase).2.2
      sampleFile sampleFileHeader sampleCiphertext (sampleKey wrongPassphrase)
      (zero wrongPassphrase) (by rfl) decodeHeader_sampleFile (by rfl)).1
      GoError.errOpen (by rfl)).2

/-! ## encoding/json: what `Unmarshal` reads back from `Marshal` -/

theorem hexVal_hexDigit : ∀ v, v < 16 → hexVal (hexDigit v) = some v := by
  decide

theorem b64Val_b64Char : ∀ v, v < 64 → b64Val (b64Char v) = some v := by
  decide

theorem b64Char_ne_pad : ∀ v, v < 64 → b64Char v ≠ 61 := by
  decide

theorem b64Decode_b64Encode (s : Bytes) (hs : isBytes s) : b64Decode (b64Encode s) = some s := by
  induction s using b64Encode.induct with
  | case1 => rfl
  | case2 a =>
    have ha : a < 256 := hs a (by simp)
    simp only [b64Encode, b64Decode, and_self, if_true,
      b64Val_b64Char _ (show a / 4 < 64 by omega), b64Val_b64Char _ (show a % 4 * 16 < 64 by omega)]
    congr 2
    omega
  | case3 a b =>
    have ha : a < 256 := hs a (by simp)
    have hb : b < 256 := hs b (by simp)
    have h2 : b64Char (b % 16 * 4) ≠ 61 := b64Char_ne_pad _ (by omega)
    simp only [b64Encode, b64Decode, and_self, if_true, h2, if_false,
      b64Val_b64Char _ (show a / 4 < 64 by omega),
      b64Val_b64Char _ (show a % 4 * 16 + b / 16 < 64 by omega),
      b64Val_b64Char _ (show b % 16 * 4 < 64 by omega)]
    congr 2
    · omega
    · congr 1
      omega
  | case4 a b c rest ih =>
    have ha : a < 256 := hs a (by simp)
    have hb : b < 256 := hs b (by simp)
    have hc : c < 256 := hs c (by simp)
    have hrest : isBytes rest := fun x hx => hs x (by simp [hx])
    have h3 : b64Char (c % 64) ≠ 61 := b64Char_ne_pad _ (by omega)
    simp only [b64Encode, b64Decode, h3, and_false, if_false, ih hrest,
      b64Val_b64Char _ (show a / 4 < 64 by omega),
      b64Val_b64Char _ (show a % 4 * 16 + b / 16 < 64 by omega),
      b64Val_b64Char _ (show b % 16 * 4 + c / 64 < 64 by omega),
      b64Val_b64Char _ (show c % 64 < 64 by omega)]
    congr 2
    · omega
    · congr 1
      · omega
      · congr 1
        omega

theorem decodeRune_two (b b1 : Nat) (t : Bytes) (h1 : 0xC2 ≤ b) (h2 : b < 0xE0)
    (h3 : 0x80 ≤ b1) (h4 : b1 ≤ 0xBF) :
    decodeRune (b :: b1 :: t) = ((b - 0xC0) * 64 + (b1 - 0x80), 2) := by
  simp only [decodeRune]
  rw [if_neg (by omega), if_neg (by omega), if_pos (by omega)]
  simp only [isCont, Bool.and_eq_true, decide_eq_true_eq]
  rw [if_pos ⟨h3, h4⟩]

theorem encodeRune_two (b b1 : Nat) (h1 : 0xC2 ≤ b) (h2 : b < 0xE0)
    (h3 : 0x80 ≤ b1) (h4 : b1 ≤ 0xBF) :
    encodeRune ((b - 0xC0) * 64 + (b1 - 0x80)) = [b, b1] := by
  unfold encodeRune
  rw [if_neg (by omega), if_pos (by omega)]
  simp only [List.cons.injEq, and_true]
  omega

theorem decodeRune_three (b b1 b2 : Nat) (t : Bytes) (h1 : 0xE0 ≤ b) (h2 : b < 0xF0)
    (hlo : (if b = 0xE0 then 0xA0 else 0x80) ≤ b1) (hhi : b1 ≤ (if b = 0xED then 0x9F else 0xBF))
    (h5 : 0x80 ≤ b2) (h6 : b2 ≤ 0xBF) :
    decodeRune (b :: b1 :: b2 :: t)
      = ((b - 0xE0) * 4096 + (b1 - 0x80) * 64 + (b2 - 0x80), 3) := by
  simp only [decodeRune]
  rw [if_neg (by omega), if_neg (by omega), if_neg (by omega), if_pos (by omega)]
  simp only [isCont, Bool.and_eq_true, decide_eq_true_eq]
  rw [if_pos ⟨hlo, hhi, h5, h6⟩]

theorem encodeRune_three (b b1 b2 : Nat) (h1 : 0xE0 ≤ b) (h2 : b < 0xF0)
    (hlo : (if b = 0xE0 then 0xA0 else 0x80) ≤ b1) (hhi : b1 ≤ (if b = 0xED then 0x9F else 0xBF))
    (h5 : 0x80 ≤ b2) (h6 : b2 ≤ 0xBF) :
    encodeRune ((b - 0xE0) * 4096 + (b1 - 0x80) * 64 + (b2 - 0x80)) = [b, b1, b2] := by
  have hb1 : 0x80 ≤ b1 ∧ b1 ≤ 0xBF := by
    constructor
    · split_ifs at hlo <;> omega
    · split_ifs at hhi <;> omega
  have hE0 : b = 0xE0 → 0xA0 ≤ b1 := by
    intro h; rw [if_pos h] at hlo; exact hlo
  have hED : b = 0xED → b1 ≤ 0x9F := by
    intro h; rw [if_pos h] at hhi; exact hhi
  unfold encodeRune
  rw [if_neg (by omega), if_neg (by omega), if_neg (by omega), if_pos (by omega)]
  simp only [List.cons.injEq, and_true]
  omega

theorem decodeRune_four (b b1 b2 b3 : Nat) (t : Bytes) (h1 : 0xF0 ≤ b) (h2 : b < 0xF5)
    (hlo : (if b = 0xF0 then 0x90 else 0x80) ≤ b1) (hhi : b1 ≤ (if b = 0xF4 then 0x8F else 0xBF))
    (h5 : 0x80 ≤ b2) (h6 : b2 ≤ 0xBF) (h7 : 0x80 ≤ b3) (h8 : b3 ≤ 0xBF) :
    decodeRune (b :: b1 :: b2 :: b3 :: t)
      = ((b - 0xF0) * 262144 + (b1 - 0x80) * 4096 + (b2 - 0x80) * 64 + (b3 - 0x80), 4) := by
  simp only [decodeRune]
  rw [if_neg (by omega), if_neg (by omega), if_neg (by omega), if_neg (by omega),
    if_pos (by omega)]
  simp only [isCont, Bool.and_eq_true, decide_eq_true_eq]
  rw [if_pos ⟨hlo, hhi, ⟨h5, h6⟩, h7, h8⟩]

theorem encodeRune_four (b b1 b2 b3 : Nat) (h1 : 0xF0 ≤ b) (h2 : b < 0xF5)
    (hlo : (if b = 0xF0 then 0x90 else 0x80) ≤ b1) (hhi : b1 ≤ (if b = 0xF4 then 0x8F else 0xBF))
    (h5 : 0x80 ≤ b2) (h6 : b2 ≤ 0xBF) (h7 : 0x80 ≤ b3) (h8 : b3 ≤ 0xBF) :
    encodeRune ((b - 0xF0) * 262144 + (b1 - 0x80) * 4096 + (b2 - 0x80) * 64 + (b3 - 0x80))
      = [b, b1, b2, b3] := by
  have hb1 : 0x80 ≤ b1 ∧ b1 ≤ 0xBF := by
    constructor
    · split_ifs at hlo <;> omega
    · split_ifs at hhi <;> omega
  have hF0 : b = 0xF0 → 0x90 ≤ b1 := by
    intro h; rw [if_pos h] at hlo; exact hlo
  have hF4 : b = 0xF4 → b1 ≤ 0x8F := by
    intro h; rw [if_pos h] at hhi; exact hhi
  unfold encodeRune
  rw [if_neg (by omega), if_neg (by omega), if_neg (by omega), if_neg (by omega)]
  simp only [List.cons.injEq, and_true]
  omega

theorem decodeRune_valid_cases (b : Nat) (t : Bytes) (c size : Nat) (hb : 0x80 ≤ b)
    (hd : decodeRune (b :: t) = (c, size)) (hv : ¬ (c = RuneError ∧ size = 1)) :
    (∃ b1 t', t = b1 :: t' ∧ 0xC2 ≤ b ∧ b < 0xE0 ∧ 0x80 ≤ b1 ∧ b1 ≤ 0xBF ∧
      c = (b - 0xC0) * 64 + (b1 - 0x80) ∧ size = 2) ∨
    (∃ b1 b2 t', t = b1 :: b2 :: t' ∧ 0xE0 ≤ b ∧ b < 0xF0 ∧
      (if b = 0xE0 then 0xA0 else 0x80) ≤ b1 ∧ b1 ≤ (if b = 0xED then 0x9F else 0xBF) ∧
      0x80 ≤ b2 ∧ b2 ≤ 0xBF ∧
      c = (b - 0xE0) * 4096 + (b1 - 0x80) * 64 + (b2 - 0x80) ∧ size = 3) ∨
    (∃ b1 b2 b3 t', t = b1 :: b2 :: b3 :: t' ∧ 0xF0 ≤ b ∧ b < 0xF5 ∧
      (if b = 0xF0 then 0x90 else 0x80) ≤ b1 ∧ b1 ≤ (if b = 0xF4 then 0x8F else 0xBF) ∧
      0x80 ≤ b2 ∧ b2 ≤ 0xBF ∧ 0x80 ≤ b3 ∧ b3 ≤ 0xBF ∧
      c = (b - 0xF0) * 262144 + (b1 - 0x80) * 4096 + (b2 - 0x80) * 64 + (b3 - 0x80) ∧
      size = 4) := by
  simp only [decodeRune] at hd
  rw [if_neg (by omega)] at hd
  by_cases h1 : b < 0xC2
  · rw [if_pos h1] at hd
    obtain ⟨rfl, rfl⟩ := Prod.mk.inj hd
    exact absurd ⟨rfl, rfl⟩ hv
  rw [if_neg h1] at hd
  by_cases h2 : b < 0xE0
  · rw [if_pos h2] at hd
    left
    rcases t with _ | ⟨b1, t'⟩
    · obtain ⟨rfl, rfl⟩ := Prod.mk.inj hd
      exact absurd ⟨rfl, rfl⟩ hv
    · simp only [isCont, Bool.and_eq_true, decide_eq_true_eq] at hd
      by_cases hc : 0x80 ≤ b1 ∧ b1 ≤ 0xBF
      · rw [if_pos hc] at hd
        obtain ⟨rfl, rfl⟩ := Prod.mk.inj hd
        exact ⟨b1, t', rfl, by omega, h2, hc.1, hc.2, rfl, rfl⟩
      · rw [if_neg hc] at hd
        obtain ⟨rfl, rfl⟩ := Prod.mk.inj hd
        exact absurd ⟨rfl, rfl⟩ hv
  rw [if_neg h2] at hd
  by_cases h3 : b < 0xF0
  · rw [if_pos h3] at hd
    right; left
    rcases t with _ | ⟨b1, _ | ⟨b2, t'⟩⟩
    · obtain ⟨rfl, rfl⟩ := Prod.mk.inj hd
      exact absurd ⟨rfl, rfl⟩ hv
    · obtain ⟨rfl, rfl⟩ := Prod.mk.inj hd
      exact absurd ⟨rfl, rfl⟩ hv
    · simp only [isCont, Bool.and_eq_true, decide_eq_true_eq] at hd
      by_cases hc : (if b = 0xE0 then 0xA0 else 0x80) ≤ b1 ∧
          b1 ≤ (if b = 0xED then 0x9F else 0xBF) ∧ 0x80 ≤ b2 ∧ b2 ≤ 0xBF
      · rw [if_pos hc] at hd
        obtain ⟨rfl, rfl⟩ := Prod.mk.inj hd
        exact ⟨b1, b2, t', rfl, by omega, h3, hc.1, hc.2.1, hc.2.2.1, hc.2.2.2, rfl, rfl⟩
      · rw [if_neg hc] at hd
        obtain ⟨rfl, rfl⟩ := Prod.mk.inj hd
        exact absurd ⟨rfl, rfl⟩ hv
  rw [if_neg h3] at hd
  by_cases h4 : b < 0xF5
  · rw [if_pos h4] at hd
    right; right
    rcases t with _ | ⟨b1, _ | ⟨b2, _ | ⟨b3, t'⟩⟩⟩
    · obtain ⟨rfl, rfl⟩ := Prod.mk.inj hd
      exact absurd ⟨rfl, rfl⟩ hv
    · obtain ⟨rfl, rfl⟩ := Prod.mk.inj hd
      exact absurd ⟨rfl, rfl⟩ hv
    · obtain ⟨rfl, rfl⟩ := Prod.mk.inj hd
      exact absurd ⟨rfl, rfl⟩ hv
    · simp only [isCont, Bool.and_eq_true, decide_eq_true_eq] at hd
      by_cases hc : (if b = 0xF0 then 0x90 else 0x80) ≤ b1 ∧
          b1 ≤ (if b = 0xF4 then 0x8F else 0xBF) ∧ (0x80 ≤ b2 ∧ b2 ≤ 0xBF) ∧ 0x80 ≤ b3 ∧ b3 ≤ 0xBF
      · rw [if_pos hc] at hd
        obtain ⟨rfl, rfl⟩ := Prod.mk.inj hd
        exact ⟨b1, b2, b3, t', rfl, by omega, h4, hc.1, hc.2.1, hc.2.2.1.1, hc.2.2.1.2,
          hc.2.2.2.1, hc.2.2.2.2, rfl, rfl⟩
      · rw [if_neg hc] at hd
        obtain ⟨rfl, rfl⟩ := Prod.mk.inj hd
        exact absurd ⟨rfl, rfl⟩ hv
  · rw [if_neg h4] at hd
    obtain ⟨rfl, rfl⟩ := Prod.mk.inj hd
    exact absurd ⟨rfl, rfl⟩ hv

set_option maxRecDepth 10000 in
theorem decodeRune_valid (b : Nat) (t : Bytes) (c size : Nat) (hb : 0x80 ≤ b)
    (hd : decodeRune (b :: t) = (c, size)) (hv : ¬ (c = RuneError ∧ size = 1)) :
    size ≤ (b :: t).length ∧ 2 ≤ size ∧ encodeRune c = (b :: t).take size ∧
    (∀ x, decodeRune ((b :: t).take size ++ x) = (c, size)) := by
  rcases decodeRune_valid_cases b t c size hb hd hv with
    ⟨b1, t', ht, h1, h2, h3, h4, hc, hs⟩ |
    ⟨b1, b2, t', ht, h1, h2, hlo, hhi, h5, h6, hc, hs⟩ |
    ⟨b1, b2, b3, t', ht, h1, h2, hlo, hhi, h5, h6, h7, h8, hc, hs⟩ <;>
    clear hd hv <;> subst ht hc hs
  · refine ⟨by simp, by omega, ?_, fun x => ?_⟩
    · simp only [List.take_succ_cons, List.take_zero]
      exact encodeRune_two b b1 h1 h2 h3 h4
    · simp only [List.take_succ_cons, List.take_zero, List.cons_append, List.nil_append]
      exact decodeRune_two b b1 _ h1 h2 h3 h4
  · refine ⟨by simp, by omega, ?_, fun x => ?_⟩
    · simp only [List.take_succ_cons, List.take_zero]
      exact encodeRune_three b b1 b2 h1 h2 hlo hhi h5 h6
    · simp only [List.take_succ_cons, List.take_zero, List.cons_append, List.nil_append]
      exact decodeRune_three b b1 b2 _ h1 h2 hlo hhi h5 h6
  · refine ⟨by simp, by omega, ?_, fun x => ?_⟩
    · simp only [List.take_succ_cons, List.take_zero]
      exact encodeRune_four b b1 b2 b3 h1 h2 hlo hhi h5 h6 h7 h8
    · simp only [List.take_succ_cons, List.take_zero, List.cons_append, List.nil_append]
      exact decodeRune_four b b1 b2 b3 _ h1 h2 hlo hhi h5 h6 h7 h8

theorem unquoteAux_quote (g : Nat) (rest : Bytes) :
    unquoteAux (g + 1) (0x22 :: rest) = some ([], rest) := by
  simp [unquoteAux]

theorem unquoteAux_plain (g c : Nat) (rest : Bytes) (h1 : 0x20 ≤ c) (h2 : c < 0x80)
    (h3 : c ≠ 0x22) (h4 : c ≠ 0x5C) :
    unquoteAux (g + 1) (c :: rest) = (unquoteAux g rest).map fun (s, r) => (c :: s, r) := by
  simp only [unquoteAux]
  rw [if_neg h3, if_neg h4, if_neg (by omega), if_pos h2]

/-- The character a two-character escape stands for. -/
theorem unquoteAux_simple (g e b : Nat) (rest : Bytes)
    (h : (e = 0x22 ∧ b = 0x22) ∨ (e = 0x5C ∧ b = 0x5C) ∨ (e = 0x62 ∧ b = 0x08) ∨
      (e = 0x66 ∧ b = 0x0C) ∨ (e = 0x6E ∧ b = 0x0A) ∨ (e = 0x72 ∧ b = 0x0D) ∨
      (e = 0x74 ∧ b = 0x09)) :
    unquoteAux (g + 1) (0x5C :: e :: rest)
      = (unquoteAux g rest).map fun (s, r) => (b :: s, r) := by
  rcases h with ⟨rfl, rfl⟩ | ⟨rfl, rfl⟩ | ⟨rfl, rfl⟩ | ⟨rfl, rfl⟩ | ⟨rfl, rfl⟩ | ⟨rfl, rfl⟩ |
    ⟨rfl, rfl⟩ <;> simp [unquoteAux]

theorem unquoteAux_u4 (g h1 h2 h3 h4 rr : Nat) (rest : Bytes)
    (hu : getu4 [h1, h2, h3, h4] = some rr) (hs : isSurrogate rr = false) :
    unquoteAux (g + 1) (0x5C :: 0x75 :: h1 :: h2 :: h3 :: h4 :: rest)
      = (unquoteAux g rest).map fun (s, r) => (encodeRune rr ++ s, r) := by
  have hu' : getu4 (h1 :: h2 :: h3 :: h4 :: rest) = some rr := by
    simpa [getu4] using hu
  simp [unquoteAux, hu', hs]

theorem unquoteAux_multi (g c : Nat) (rest : Bytes) (h : 0x80 ≤ c) :
    unquoteAux (g + 1) (c :: rest)
      = (unquoteAux g ((c :: rest).drop (decodeRune (c :: rest)).2)).map
          fun (s, r) => (encodeRune (decodeRune (c :: rest)).1 ++ s, r) := by
  simp only [unquoteAux]
  rw [if_neg (by omega), if_neg (by omega), if_neg (by omega), if_neg (by omega)]

theorem escapeASCII_unquote (g b : Nat) (rest : Bytes) (hb : b < 0x80) :
    unquoteAux (g + 1) (escapeASCII b ++ rest)
      = (unquoteAux g rest).map fun (s, r) => (b :: s, r) := by
  unfold escapeASCII
  by_cases h1 : b = 0x5C ∨ b = 0x22
  · rw [if_pos h1]
    exact unquoteAux_simple g b b rest (by omega)
  rw [if_neg h1]
  by_cases h2 : b = 0x08
  · rw [if_pos h2]
    exact unquoteAux_simple g _ b rest (by omega)
  rw [if_neg h2]
  by_cases h3 : b = 0x0C
  · rw [if_pos h3]
    exact unquoteAux_simple g _ b rest (by omega)
  rw [if_neg h3]
  by_cases h4 : b = 0x0A
  · rw [if_pos h4]
    exact unquoteAux_simple g _ b rest (by omega)
  rw [if_neg h4]
  by_cases h5 : b = 0x0D
  · rw [if_pos h5]
    exact unquoteAux_simple g _ b rest (by omega)
  rw [if_neg h5]
  by_cases h6 : b = 0x09
  · rw [if_pos h6]
    exact unquoteAux_simple g _ b rest (by omega)
  rw [if_neg h6]
  have hu : getu4 [0x30, 0x30, hexDigit (b / 16), hexDigit (b % 16)] = some b := by
    have e1 := hexVal_hexDigit (b / 16) (by omega)
    have e2 := hexVal_hexDigit (b % 16) (by omega)
    have e0 : hexVal 0x30 = some 0 := by decide
    simp only [getu4, e0, e1, e2]
    congr 1
    omega
  have hsur : isSurrogate b = false := by
    simp only [isSurrogate, Bool.and_eq_false_imp, decide_eq_true_eq, decide_eq_false_iff_not]
    omega
  have := unquoteAux_u4 g 0x30 0x30 (hexDigit (b / 16)) (hexDigit (b % 16)) b rest hu hsur
  have he : encodeRune b = [b] := by
    unfold encodeRune
    rw [if_pos hb]
  rw [he] at this
  simpa using this

theorem htmlSafe_plain (b : Nat) (h : htmlSafe b = true) :
    0x20 ≤ b ∧ b < 0x80 ∧ b ≠ 0x22 ∧ b ≠ 0x5C := by
  simp only [htmlSafe, Bool.and_eq_true, decide_eq_true_eq, bne_iff_ne, ne_eq] at h
  omega

theorem unquoteAux_appendStringAux (rest : Bytes) :
    ∀ f s, s.length ≤ f → utf8ValidAux f s = true →
      ∀ g, (appendStringAux f s).length < g →
        unquoteAux g (appendStringAux f s ++ 0x22 :: rest) = some (s, rest) := by
  intro f
  induction f with
  | zero =>
    intro s hl _ g hg
    have hs : s = [] := List.length_eq_zero.mp (by omega)
    subst hs
    obtain ⟨g', rfl⟩ : ∃ g', g = g' + 1 := ⟨g - 1, by omega⟩
    simp only [appendStringAux, List.nil_append]
    exact unquoteAux_quote g' rest
  | succ f ih =>
    intro s hl hv g hg
    obtain ⟨g', rfl⟩ : ∃ g', g = g' + 1 := ⟨g - 1, by omega⟩
    rcases s with _ | ⟨b, t⟩
    · simp only [appendStringAux, List.nil_append]
      exact unquoteAux_quote g' rest
    by_cases hb : b < 0x80
    · -- an ASCII character
      have hd : decodeRune (b :: t) = (b, 1) := by
        simp only [decodeRune]
        rw [if_pos hb]
      have hvt : utf8ValidAux f t = true := by
        simp only [utf8ValidAux, hd, List.drop_succ_cons, List.drop_zero] at hv
        rw [if_neg (by simp only [RuneError]; omega)] at hv
        exact hv
      have hlt : t.length ≤ f := by simpa using hl
      simp only [appendStringAux, if_pos hb] at hg ⊢
      by_cases hsafe : htmlSafe b = true
      · rw [if_pos hsafe] at hg ⊢
        obtain ⟨p1, p2, p3, p4⟩ := htmlSafe_plain b hsafe
        rw [List.cons_append, unquoteAux_plain g' b _ p1 p2 p3 p4,
          ih t hlt hvt g' (by simpa using hg)]
        rfl
      · rw [if_neg hsafe] at hg ⊢
        have hlen : 1 ≤ (escapeASCII b).length := by
          unfold escapeASCII
          split_ifs <;> simp
        rw [List.append_assoc, escapeASCII_unquote g' b _ hb,
          ih t hlt hvt g' (by simp only [List.length_append] at hg; omega)]
        rfl
    · -- a rune of several bytes
      have hb' : 0x80 ≤ b := by omega
      rcases hd : decodeRune (b :: t) with ⟨c, size⟩
      have hvalid : ¬ (c = RuneError ∧ size = 1) ∧
          utf8ValidAux f ((b :: t).drop size) = true := by
        simp only [utf8ValidAux, hd] at hv
        by_cases hc : c = RuneError ∧ size = 1
        · rw [if_pos hc] at hv
          exact absurd hv (by simp)
        · rw [if_neg hc] at hv
          exact ⟨hc, hv⟩
      obtain ⟨hsz, hsz2, henc, hdec⟩ := decodeRune_valid b t c size hb' hd hvalid.1
      have hldrop : ((b :: t).drop size).length ≤ f := by
        simp only [List.length_drop, List.length_cons] at hl ⊢
        omega
      have htake : ((b :: t).take size).length = size := by
        simp only [List.length_take, List.length_cons] at hsz ⊢
        omega
      simp only [appendStringAux, if_neg hb, hd, if_neg hvalid.1] at hg ⊢
      by_cases h2028 : c = 0x2028 ∨ c = 0x2029
      · rw [if_pos h2028] at hg ⊢
        have hu : getu4 [0x32, 0x30, 0x32, hexDigit (c % 16)] = some c := by
          have e1 := hexVal_hexDigit (c % 16) (by omega)
          have e0 : hexVal 0x30 = some 0 := by decide
          have e2 : hexVal 0x32 = some 2 := by decide
          simp only [getu4, e0, e1, e2]
          congr 1
          omega
        have hsur : isSurrogate c = false := by
          simp only [isSurrogate, Bool.and_eq_false_imp, decide_eq_true_eq,
            decide_eq_false_iff_not]
          omega
        have ha : ascii "\\u202" = [0x5C, 0x75, 0x32, 0x30, 0x32] := by decide
        rw [ha] at hg ⊢
        simp only [List.cons_append, List.nil_append, List.append_assoc, List.length_cons,
          List.length_append] at hg ⊢
        rw [unquoteAux_u4 g' _ _ _ _ c _ hu hsur,
          ih _ hldrop hvalid.2 g' (by omega)]
        simp only [Option.map_some', henc, List.take_append_drop]
      · rw [if_neg h2028] at hg ⊢
        have hcons : (b :: t).take size ++ appendStringAux f ((b :: t).drop size)
            ++ 0x22 :: rest
            = b :: (((b :: t).take size).drop 1
                ++ (appendStringAux f ((b :: t).drop size) ++ 0x22 :: rest)) := by
          obtain ⟨k, rfl⟩ : ∃ k, size = k + 1 := ⟨size - 1, by omega⟩
          simp [List.take_succ_cons]
        have hrune : decodeRune (b :: (((b :: t).take size).drop 1
            ++ (appendStringAux f ((b :: t).drop size) ++ 0x22 :: rest))) = (c, size) := by
          rw [← hcons, List.append_assoc]
          exact hdec _
        rw [hcons, unquoteAux_multi g' b _ hb', hrune]
        simp only []
        rw [← hcons, List.append_assoc, List.drop_left' htake,
          ih _ hldrop hvalid.2 g' (by simp only [List.length_append, htake] at hg; omega)]
        simp only [Option.map_some', henc, List.take_append_drop]

theorem jsonExpect_append (lit rest : Bytes) : jsonExpect lit (lit ++ rest) = some rest := by
  simp [jsonExpect]

theorem parseString_appendString (s rest : Bytes) (hv : utf8Valid s = true) :
    parseString (appendString s ++ rest) = some (s, rest) := by
  unfold appendString parseString
  simp only [List.cons_append, List.nil_append, List.append_assoc]
  exact unquoteAux_appendStringAux rest s.length s (le_refl _) hv _ (by simp)

theorem unquoteAux_plainText (rest : Bytes) :
    ∀ q : Bytes, (∀ c ∈ q, plainChar c) → ∀ g, q.length < g →
      unquoteAux g (q ++ 0x22 :: rest) = some (q, rest) := by
  intro q
  induction q with
  | nil =>
    intro _ g hg
    obtain ⟨g', rfl⟩ : ∃ g', g = g' + 1 := ⟨g - 1, by simp at hg; omega⟩
    exact unquoteAux_quote g' rest
  | cons c q ih =>
    intro hq g hg
    obtain ⟨g', rfl⟩ : ∃ g', g = g' + 1 := ⟨g - 1, by omega⟩
    obtain ⟨p1, p2, p3, p4⟩ := hq c (List.mem_cons_self _ _)
    rw [List.cons_append, unquoteAux_plain g' c _ p1 p2 p3 p4,
      ih (fun x hx => hq x (List.mem_cons_of_mem _ hx)) g' (by simpa using hg)]
    rfl

theorem b64Char_plain (v : Nat) : plainChar (b64Char v) := by
  unfold plainChar b64Char
  split_ifs <;> omega

theorem b64Encode_plain (s : Bytes) : ∀ c ∈ b64Encode s, plainChar c := by
  induction s using b64Encode.induct with
  | case1 => simp [b64Encode]
  | case2 a =>
    intro c hc
    simp only [b64Encode, List.mem_cons, List.mem_singleton, List.not_mem_nil, or_false] at hc
    rcases hc with rfl | rfl | rfl | rfl
    · exact b64Char_plain _
    · exact b64Char_plain _
    · unfold plainChar; omega
    · unfold plainChar; omega
  | case3 a b =>
    intro c hc
    simp only [b64Encode, List.mem_cons, List.mem_singleton, List.not_mem_nil, or_false] at hc
    rcases hc with rfl | rfl | rfl | rfl
    · exact b64Char_plain _
    · exact b64Char_plain _
    · exact b64Char_plain _
    · unfold plainChar; omega
  | case4 a b c rest ih =>
    intro x hx
    simp only [b64Encode, List.mem_cons] at hx
    rcases hx with rfl | rfl | rfl | rfl | hx
    · exact b64Char_plain _
    · exact b64Char_plain _
    · exact b64Char_plain _
    · exact b64Char_plain _
    · exact ih x hx

theorem parseBytes_appendBytes (b rest : Bytes) (hb : isBytes b) :
    parseBytes (appendBytes b ++ rest) = some (b, rest) := by
  unfold parseBytes appendBytes
  have hnull : jsonExpect (ascii "null") ([0x22] ++ b64Encode b ++ [0x22] ++ rest) = none := by
    have ha : ascii "null" = [0x6E, 0x75, 0x6C, 0x6C] := by decide
    simp [jsonExpect, ha, List.take_succ_cons]
  rw [hnull]
  have hp : parseString ([0x22] ++ b64Encode b ++ [0x22] ++ rest) = some (b64Encode b, rest) := by
    unfold parseString
    simp only [List.cons_append, List.nil_append, List.append_assoc]
    exact unquoteAux_plainText rest _ (b64Encode_plain b) _ (by simp)
  simp only [hp, b64Decode_b64Encode b hb]

theorem parseEntry_marshalEntry (e : Entry) (rest : Bytes) (hv : e.valid) :
    parseEntry (marshalEntry e ++ rest) = some (e, rest) := by
  obtain ⟨h1, h2, h3, h4, h5⟩ := hv
  unfold marshalEntry parseEntry
  simp only [List.append_assoc, jsonExpect_append, parseString_appendString _ _ h1,
    parseString_appendString _ _ h2, parseString_appendString _ _ h3,
    parseString_appendString _ _ h5, parseBytes_appendBytes _ _ h4,
    bind, Option.bind, pure]

theorem marshalEntry_head (e : Entry) : ∃ x, marshalEntry e = 0x7B :: x := by
  unfold marshalEntry
  have ha : ascii "\x7b\"ID\":" = [0x7B, 0x22, 0x49, 0x44, 0x22, 0x3A] := by decide
  rw [ha]
  exact ⟨_, by simp only [List.cons_append, List.append_assoc]; rfl⟩

theorem marshalEntries_cons (e : Entry) (es : List Entry) :
    marshalEntries (e :: es) = marshalEntry e ++ marshalTail es := by
  induction es generalizing e with
  | nil => simp [marshalEntries, marshalTail]
  | cons x xs ih =>
    simp only [marshalEntries, marshalTail, ih x, List.append_assoc]

theorem marshalTail_length (es : List Entry) : es.length ≤ (marshalTail es).length := by
  induction es with
  | nil => simp
  | cons x xs ih =>
    simp only [marshalTail, List.length_cons, List.length_append, List.length_nil]
    omega

theorem parseEntriesTail_marshalTail (rest : Bytes) :
    ∀ (es : List Entry) (fuel : Nat), es.length < fuel → (∀ e ∈ es, e.valid) →
      parseEntriesTail fuel (marshalTail es ++ 0x5D :: rest) = some (es, rest) := by
  intro es
  induction es with
  | nil =>
    intro fuel hf _
    obtain ⟨f, rfl⟩ : ∃ f, fuel = f + 1 := ⟨fuel - 1, by simp at hf; omega⟩
    simp [marshalTail, parseEntriesTail]
  | cons x xs ih =>
    intro fuel hf hv
    obtain ⟨f, rfl⟩ : ∃ f, fuel = f + 1 := ⟨fuel - 1, by omega⟩
    simp only [marshalTail, List.cons_append, List.nil_append, List.append_assoc,
      parseEntriesTail]
    rw [parseEntry_marshalEntry x _ (hv x (List.mem_cons_self _ _))]
    simp only []
    rw [ih f (by simpa using hf) (fun e he => hv e (List.mem_cons_of_mem _ he))]

theorem parseEntries_marshalEntries (es : List Entry) (rest : Bytes) (hv : ∀ e ∈ es, e.valid) :
    parseEntries (0x5B :: (marshalEntries es ++ 0x5D :: rest)) = some (es, rest) := by
  have hnull : ∀ x, jsonExpect (ascii "null") (0x5B :: x) = none := by
    intro x
    have ha : ascii "null" = [0x6E, 0x75, 0x6C, 0x6C] := by decide
    simp [jsonExpect, ha, List.take_succ_cons]
  unfold parseEntries
  rw [hnull]
  rcases es with _ | ⟨e, es⟩
  · simp [marshalEntries]
  · obtain ⟨x, hx⟩ := marshalEntry_head e
    rw [marshalEntries_cons, List.append_assoc]
    have hsplit : (0x5B :: (marshalEntry e ++ (marshalTail es ++ 0x5D :: rest)))
        = 0x5B :: 0x7B :: (x ++ (marshalTail es ++ 0x5D :: rest)) := by
      rw [hx]; rfl
    rw [hsplit]
    simp only []
    rw [show (0x7B :: (x ++ (marshalTail es ++ 0x5D :: rest)))
        = marshalEntry e ++ (marshalTail es ++ 0x5D :: rest) by rw [hx]; rfl]
    rw [parseEntry_marshalEntry e _ (hv e (List.mem_cons_self _ _))]
    simp only []
    rw [parseEntriesTail_marshalTail rest es _ (by
        have := marshalTail_length es
        simp only [List.length_append, List.length_cons]
        omega) (fun y hy => hv y (List.mem_cons_of_mem _ hy))]

theorem parseVault_jsonMarshal (d : plaintextVault) (hv : ∀ e ∈ d.Entries, e.valid) :
    parseVault (jsonMarshal d) = some d := by
  unfold parseVault jsonMarshal
  have h1 : ascii "\x7b\"Entries\":[" = ascii "\x7b\"Entries\":" ++ [0x5B] := by decide
  have h2 : ascii "]\x7d" = 0x5D :: ascii "\x7d" := by decide
  rw [h1, h2]
  simp only [List.append_assoc, jsonExpect_append, List.singleton_append, List.cons_append,
    List.nil_append, bind, Option.bind]
  rw [parseEntries_marshalEntries d.Entries _ hv]
  simp only []
  have h3 : jsonExpect (ascii "\x7d") (ascii "\x7d") = some [] := by decide
  rw [h3]
  simp

theorem jsonUnmarshal_jsonMarshal (d old : plaintextVault) (hv : ∀ e ∈ d.Entries, e.valid) :
    jsonUnmarshal (jsonMarshal d) old = (none, d) := by
  unfold jsonUnmarshal
  rw [parseVault_jsonMarshal d hv]

theorem atomicWriteFile_ok (env : OSEnv) (fs fs' : FileSys) (path : String) (data : Bytes)
    (perm : Nat) (h : atomicWriteFile env fs path data perm = (none, fs'))
    (htmp : env.tempPath path ≠ path) :
    osReadFile fs' path = .ok data := by
  unfold atomicWriteFile at h
  simp only [] at h
  split_ifs at h with h1 h2 h3 h4 h5 h6
  all_goals simp only [Prod.mk.injEq, reduceCtorEq, false_and] at h
  · obtain ⟨-, rfl⟩ := h
    simp [osReadFile, osRemove, FileSys.set, osRename, Ne.symm htmp]
  · obtain ⟨-, rfl⟩ := h
    simp [osReadFile, osRemove, FileSys.set, osRename, osChmod, Ne.symm htmp]

theorem foldl_Add (E : List Entry) (v : Vault) :
    (E.foldl Vault.Add v).Filename = v.Filename ∧ (E.foldl Vault.Add v).KDF = v.KDF ∧
    (E.foldl Vault.Add v).FEK = v.FEK ∧
    (E.foldl Vault.Add v).data.Entries = v.data.Entries ++ E := by
  induction E generalizing v with
  | nil => simp
  | cons e es ih =>
    obtain ⟨h1, h2, h3, h4⟩ := ih (v.Add e)
    simp only [List.foldl_cons]
    refine ⟨h1, h2, h3, ?_⟩
    rw [h4]
    simp [Vault.Add]

theorem Derive_cases (P : Primitives) (pass : Bytes) (k : KDFParams) (info : Bytes) :
    (DeriveFEKFromPassphrase P pass k info = .panic ∧ (k.Time < 1 ∨ k.Threads < 1)) ∨
    (1 ≤ k.Time ∧ 1 ≤ k.Threads ∧
      DeriveFEKFromPassphrase P pass k info
        = .ret (.ok (P.hkdfSha256 (P.argon2id pass k.Salt k.Time k.Memory k.Threads MasterKeyLen)
            [] info FEKLen), zero pass)) := by
  by_cases ht : k.Time < 1
  · left
    refine ⟨?_, Or.inl ht⟩
    unfold DeriveFEKFromPassphrase argon2IDKey
    rw [if_pos ht]
  · by_cases hth : k.Threads < 1
    · left
      refine ⟨?_, Or.inr hth⟩
      unfold DeriveFEKFromPassphrase argon2IDKey
      rw [if_neg ht, if_pos hth]
    · right
      exact ⟨by omega, by omega, DeriveFEK_not_panic P pass k info (by omega) (by omega)⟩

theorem Create_ok (P : Primitives) (J : JSONCodec) (env : OSEnv) (fs : FileSys) (rand : Rand)
    (v : Vault) (pass : Bytes) (w : World)
    (h : v.Create P J env fs rand pass = .ret w) (h0 : w.err = none) :
    w.v.Filename = v.Filename ∧ w.v.KDF.Time = v.KDF.Time ∧ w.v.KDF.Memory = v.KDF.Memory ∧
    w.v.KDF.Threads = v.KDF.Threads ∧ 1 ≤ w.v.KDF.Time ∧ 1 ≤ w.v.KDF.Threads ∧
    w.v.FEK = derivedKey P pass w.v.KDF ∧ w.v.data.Entries = [] := by
  unfold Vault.Create at h
  by_cases hsalt : v.KDF.Salt.length = 0
  · simp only [hsalt, if_true] at h
    rcases Derive_cases P pass { v.KDF with Salt := (randBytes rand 16).1 } infoVaultV1 with
      ⟨hp, -⟩ | ⟨ht, hth, hk⟩
    · simp only [hp] at h
      cases h
    · simp only [hk] at h
      split at h
      · cases h
      · split at h
        · cases h
          cases h0
        · cases h
          exact ⟨rfl, rfl, rfl, rfl, ht, hth, rfl, rfl⟩
  · simp only [hsalt, if_false] at h
    rcases Derive_cases P pass v.KDF infoVaultV1 with ⟨hp, -⟩ | ⟨ht, hth, hk⟩
    · simp only [hp] at h
      cases h
    · simp only [hk] at h
      split at h
      · cases h
      · split at h
        · cases h
          cases h0
        · cases h
          exact ⟨rfl, rfl, rfl, rfl, ht, hth, rfl, rfl⟩

theorem Save_ok (P : Primitives) (J : JSONCodec) (env : OSEnv) (fs : FileSys) (rand : Rand)
    (v : Vault) (w : World)
    (h : v.Save P J env fs rand = .ret w) (h0 : w.err = none)
    (htmp : env.tempPath v.Filename ≠ v.Filename) :
    ∃ nonce : Bytes, nonce.length = 24 ∧ v.FEK.length = 32 ∧
      (J.Marshal v.data).length ≤ 2 ^ 38 - 64 ∧ v.KDF.Salt.length ≤ 255 ∧
      osReadFile w.fs v.Filename
        = .ok (headerLayout (writtenHeader v.KDF nonce)
                ++ P.sealCore v.FEK nonce (J.Marshal v.data) Magic) := by
  unfold Vault.Save AEADSeal xchachaSeal at h
  simp only [] at h
  have hnl : (randBytes rand NonceLen).1.length = 24 := by
    simp [randBytes, NonceLen]
  by_cases hk : v.FEK.length ≠ 32
  · rw [if_pos hk] at h
    cases h
  rw [if_neg hk, if_neg (by simpa using hnl)] at h
  by_cases hpt : (J.Marshal v.data).length > 2 ^ 38 - 64
  · rw [if_pos hpt] at h
    cases h
  rw [if_neg hpt] at h
  simp only [encodeHeader_eq] at h
  by_cases hs : v.KDF.Salt.length > 255
  · rw [if_pos hs] at h
    cases h
    cases h0
  rw [if_neg hs, if_neg (by rw [hnl]; omega)] at h
  simp only [] at h
  cases h
  refine ⟨(randBytes rand NonceLen).1, hnl, by omega, by omega, by omega, ?_⟩
  exact atomicWriteFile_ok env fs _ v.Filename _ _ (Prod.ext h0 rfl) htmp

theorem headerKDF_writtenHeader (k : KDFParams) (nonce : Bytes) :
    headerKDF (writtenHeader k nonce) = k := by
  cases k
  rfl

theorem AEADOpen_sealed (P : Primitives) (hP : P.sealOpenLaw) (fek nonce text aad : Bytes)
    (hk : fek.length = 32) (hn : nonce.length = 24) (ht : text.length ≤ 2 ^ 38 - 64) :
    AEADOpen P fek nonce aad (P.sealCore fek nonce text aad) = .ret (.ok text) := by
  obtain ⟨hlen, hopen⟩ := hP fek nonce text aad
  unfold AEADOpen xchachaOpen
  rw [if_neg (by omega), if_neg (by omega), if_neg (by omega), if_neg (by omega), hopen]

/-- C4, amended. With an AEAD that opens what it sealed, for entries whose
strings are valid UTF-8 and whose secrets are arbitrary bytes: after `Create`
returned nil, the entries were added in order and `Save` returned nil (its
temporary file not being the vault file itself), `Open` with the same
passphrase on a fresh vault for the same file returns nil and `List` is exactly
the entries that were added, in the same order. -/
theorem vault_round_trip (P : Primitives) (hP : P.sealOpenLaw) (env1 env2 : OSEnv)
    (fs : FileSys) (rand rand' : Rand) (path : String) (kdf kdf' : Option KDFParams)
    (pass : Bytes) (E : List Entry) (w1 w2 : World)
    (hk : (NewVault path kdf).KDF.wellTyped) (hE : ∀ e ∈ E, e.valid)
    (hC : (NewVault path kdf).Create P goJSON env1 fs rand pass = .ret w1)
    (hC0 : w1.err = none)
    (hS : (E.foldl Vault.Add w1.v).Save P goJSON env2 w1.fs w1.rand = .ret w2)
    (hS0 : w2.err = none) (htmp : env2.tempPath path ≠ path) :
    ∃ w3, (NewVault path kdf').Open P goJSON w2.fs rand' pass = .ret w3 ∧ w3.err = none ∧
      w3.v.List = E := by
  obtain ⟨c1, c2, c3, c4, c5, c6, c7, c8⟩ := Create_ok P goJSON env1 fs rand _ pass w1 hC hC0
  obtain ⟨f1, f2, f3, f4⟩ := foldl_Add E w1.v
  have hpath : ∀ k, (NewVault path k).Filename = path := fun k => rfl
  have hfn : (E.foldl Vault.Add w1.v).Filename = path := by rw [f1, c1, hpath]
  obtain ⟨nonce, hn, hkey, hpt, hsalt, hread⟩ :=
    Save_ok P goJSON env2 w1.fs w1.rand _ w2 hS hS0 (by rw [hfn]; exact htmp)
  have hdata : (E.foldl Vault.Add w1.v).data = { Entries := E } := by
    cases hd : (E.foldl Vault.Add w1.v).data with
    | mk es =>
      rw [hd] at f4
      simp only [c8, List.nil_append] at f4
      rw [f4]
  rw [hfn, f2, f3, hdata] at hread
  rw [hdata] at hpt
  rw [f3] at hkey
  obtain ⟨k1, k2, k3, -⟩ := hk
  have hd : decodeHeader (headerLayout (writtenHeader w1.v.KDF nonce)
        ++ P.sealCore w1.v.FEK nonce (goJSON.Marshal { Entries := E }) Magic)
      = .ok (writtenHeader w1.v.KDF nonce,
          P.sealCore w1.v.FEK nonce (goJSON.Marshal { Entries := E }) Magic) := by
    apply decodeHeader_headerLayout
    · show 0 < 2 ^ 16
      omega
    · show w1.v.KDF.Time < 2 ^ 32
      rw [c2]; exact k1
    · show w1.v.KDF.Memory < 2 ^ 32
      rw [c3]; exact k2
    · left
      intro h
      have : nonce.length = 0 := by
        have h' : (writtenHeader w1.v.KDF nonce).Nonce = nonce := rfl
        rw [h'] at h
        rw [h]; rfl
      omega
  have hderive : DeriveFEKFromPassphrase P pass (headerKDF (writtenHeader w1.v.KDF nonce))
      infoVaultV1 = .ret (.ok w1.v.FEK, zero pass) := by
    rw [headerKDF_writtenHeader, DeriveFEK_not_panic P pass _ _ c5 c6, c7]
    rfl
  have ha : AEADOpen P w1.v.FEK (writtenHeader w1.v.KDF nonce).Nonce Magic
      (P.sealCore w1.v.FEK nonce (goJSON.Marshal { Entries := E }) Magic)
      = .ret (.ok (goJSON.Marshal { Entries := E })) :=
    AEADOpen_sealed P hP _ _ _ _ hkey hn hpt
  refine ⟨_, Open_aead_ok P goJSON w2.fs rand' (NewVault path kdf') pass _ _ _ _ _ _
    (by rw [hpath]; exact hread) hd hderive ha, ?_, ?_⟩
  · show (jsonUnmarshal (jsonMarshal { Entries := E }) _).1 = none
    rw [jsonUnmarshal_jsonMarshal _ _ hE]
  · show (jsonUnmarshal (jsonMarshal { Entries := E }) _).2.Entries = E
    rw [jsonUnmarshal_jsonMarshal _ _ hE]

theorem samplePrimitives_sealOpenLaw : samplePrimitives.sealOpenLaw := by
  intro key nonce text aad
  simp [samplePrimitives, sampleTag]

set_option maxRecDepth 100000 in
theorem vault_round_trip_witness :
    ∃ w3, (NewVault samplePath none).Open samplePrimitives goJSON
        ((sampleSaved [sampleEntry]).world noWorld).fs sampleRand samplePassphrase = .ret w3 ∧
      w3.err = none ∧ w3.v.List = [sampleEntry] :=
  vault_round_trip samplePrimitives samplePrimitives_sealOpenLaw sampleEnv sampleEnv emptyFS
    sampleRand sampleRand samplePath none none samplePassphrase [sampleEntry] sampleWorld1
    ((sampleSaved [sampleEntry]).world noWorld) (by decide) (by decide) (by rfl) (by rfl)
    (by rfl) (by rfl) (by decide)

set_option maxRecDepth 100000 in
/-- C4, as the claim states it, fails: in the sample run (where opening what
was sealed returns the plaintext), after `Create`, `Add` of an entry whose
title is the byte 0xFF and `Save`, all returning nil, `Open` with the same
passphrase succeeds and `List` returns the entry with the title U+FFFD instead
(the bytes EF BF BD): `json.Marshal` replaces invalid UTF-8. -/
theorem vault_round_trip_invalid_utf8 :
    sampleCreated.err? = some none ∧
    (sampleSaved [sampleEntryBadTitle]).err? = some none ∧
    (sampleReopened [sampleEntryBadTitle]).err? = some none ∧
    (sampleReopened [sampleEntryBadTitle]).vault?.map Vault.List = some [sampleEntryReplaced] ∧
    [sampleEntryReplaced] ≠ [sampleEntryBadTitle] := by
  refine ⟨by rfl, by rfl, by rfl, by rfl, by decide⟩

theorem exists_eighteen (raw : Bytes) (h : 18 ≤ raw.length) :
    ∃ a0 a1 a2 a3 a4 a5 a6 a7 a8 a9 a10 a11 a12 a13 a14 a15 a16 a17 tl,
      raw = a0 :: a1 :: a2 :: a3 :: a4 :: a5 :: a6 :: a7 :: a8 :: a9 :: a10 :: a11 :: a12
        :: a13 :: a14 :: a15 :: a16 :: a17 :: tl := by
  rcases raw with _ | ⟨a0, _ | ⟨a1, _ | ⟨a2, _ | ⟨a3, _ | ⟨a4, _ | ⟨a5, _ | ⟨a6, _ | ⟨a7,
    _ | ⟨a8, _ | ⟨a9, _ | ⟨a10, _ | ⟨a11, _ | ⟨a12, _ | ⟨a13, _ | ⟨a14, _ | ⟨a15, _ | ⟨a16,
    _ | ⟨a17, tl⟩⟩⟩⟩⟩⟩⟩⟩⟩⟩⟩⟩⟩⟩⟩⟩⟩⟩
  all_goals first
    | exact ⟨_, _, _, _, _, _, _, _, _, _, _, _, _, _, _, _, _, _, _, rfl⟩
    | (simp only [List.length_cons, List.length_nil] at h; omega)

/-- The closed form of `decodeHeader` on an input of at least 18 bytes. -/
theorem decodeHeader_cons (a0 a1 a2 a3 a4 a5 a6 a7 a8 a9 a10 a11 a12 a13 a14 a15 a16 a17 : Nat)
    (tl : Bytes) :
    decodeHeader (a0 :: a1 :: a2 :: a3 :: a4 :: a5 :: a6 :: a7 :: a8 :: a9 :: a10 :: a11 :: a12
        :: a13 :: a14 :: a15 :: a16 :: a17 :: tl) =
      if tl.length < 1 then .error GoError.ErrCorrupt
      else if [a0, a1, a2, a3] ≠ Magic then .error GoError.ErrCorrupt
      else if a4 ≠ 1 then .error GoError.ErrCorrupt
      else if tl.length ≤ a17 then .error GoError.EOF
      else if tl.length ≤ a17 + 1 then .error GoError.EOF
      else
        .ok ({ Flags := a5 * 2 ^ 8 + a6,
               KDFAlgo := a7,
               ArgonTime := a8 * 2 ^ 24 + a9 * 2 ^ 16 + a10 * 2 ^ 8 + a11,
               ArgonMemory := a12 * 2 ^ 24 + a13 * 2 ^ 16 + a14 * 2 ^ 8 + a15,
               ArgonThreads := a16,
               Salt := tl.take a17,
               Nonce := (tl.drop (a17 + 1)).take (min (tl.getD a17 0) (tl.length - (a17 + 1)))
                 ++ List.replicate
                      (tl.getD a17 0 - min (tl.getD a17 0) (tl.length - (a17 + 1))) 0 },
             tl.drop (a17 + 1 + min (tl.getD a17 0) (tl.length - (a17 + 1)))) := by
  rw [decodeHeader_eq_closed]
  unfold decodeHeaderClosed
  have e18 : 18 + a17 = a17 + 18 := by omega
  have e19 : 19 + a17 = a17 + 1 + 18 := by omega
  simp only [List.length_cons, List.getD_cons_succ, List.getD_cons_zero, List.take_succ_cons,
    List.take_zero, List.drop_succ_cons, List.drop_zero, e18, e19, Version, List.length_drop]
  by_cases c1 : tl.length < 1
  · rw [if_pos (by omega), if_pos c1]
  rw [if_neg (by omega), if_neg c1]
  by_cases c2 : [a0, a1, a2, a3] ≠ Magic
  · rw [if_pos c2, if_pos c2]
  rw [if_neg c2, if_neg c2]
  by_cases c3 : a4 ≠ 1
  · rw [if_pos c3, if_pos c3]
  rw [if_neg c3, if_neg c3]
  by_cases c4 : tl.length ≤ a17
  · rw [if_pos (by omega), if_pos c4]
  rw [if_neg (by omega), if_neg c4]
  by_cases c5 : tl.length ≤ a17 + 1
  · rw [if_pos (by omega), if_pos c5]
  rw [if_neg (by omega), if_neg c5]
  have e20 : ∀ k, a17 + 1 + 18 + k = a17 + 1 + k + 18 := by intro k; omega
  simp only [e20, List.drop_succ_cons, List.drop_zero]

theorem isBytes_cons (a : Nat) (l : Bytes) : isBytes (a :: l) ↔ a < 256 ∧ isBytes l := by
  simp [isBytes]

theorem isBytes_append (l₁ l₂ : Bytes) : isBytes (l₁ ++ l₂) ↔ isBytes l₁ ∧ isBytes l₂ := by
  simp only [isBytes, List.mem_append]
  constructor
  · intro h
    exact ⟨fun b hb => h b (Or.inl hb), fun b hb => h b (Or.inr hb)⟩
  · rintro ⟨h1, h2⟩ b (hb | hb)
    · exact h1 b hb
    · exact h2 b hb

/-- What `decodeHeader` accepts without truncation is the layout of the header
it returns, followed by the remaining bytes it returns. -/
theorem decodeHeader_inv (raw : Bytes) (h : fileHeader) (rest : Bytes)
    (hd : decodeHeader raw = .ok (h, rest)) (hb : isBytes raw)
    (hl : 19 + h.Salt.length + h.Nonce.length ≤ raw.length) :
    raw = headerLayout h ++ rest := by
  obtain ⟨a0, a1, a2, a3, a4, a5, a6, a7, a8, a9, a10, a11, a12, a13, a14, a15, a16, a17, tl,
    rfl⟩ := exists_eighteen raw (by omega)
  rw [decodeHeader_cons] at hd
  by_cases c1 : tl.length < 1
  · rw [if_pos c1] at hd; cases hd
  rw [if_neg c1] at hd
  by_cases c2 : [a0, a1, a2, a3] ≠ Magic
  · rw [if_pos c2] at hd; cases hd
  rw [if_neg c2] at hd
  by_cases c3 : a4 ≠ 1
  · rw [if_pos c3] at hd; cases hd
  rw [if_neg c3] at hd
  by_cases c4 : tl.length ≤ a17
  · rw [if_pos c4] at hd; cases hd
  rw [if_neg c4] at hd
  by_cases c5 : tl.length ≤ a17 + 1
  · rw [if_pos c5] at hd; cases hd
  rw [if_neg c5] at hd
  simp only [Except.ok.injEq, Prod.mk.injEq] at hd
  obtain ⟨hh, hrest⟩ := hd
  subst hh hrest
  simp only [List.length_cons, List.length_append, List.length_take, List.length_drop,
    List.length_replicate] at hl
  have hk : min (tl.getD a17 0) (tl.length - (a17 + 1)) = tl.getD a17 0 := by omega
  simp only [isBytes_cons] at hb
  obtain ⟨-, -, -, -, -, b5, b6, b7, b8, b9, b10, b11, b12, b13, b14, b15, b16, b17, -⟩ := hb
  have hm : a0 = 0x47 ∧ a1 = 0x56 ∧ a2 = 0x4C ∧ a3 = 0x54 := by
    have := not_not.mp c2
    simpa [Magic] using this
  obtain ⟨rfl, rfl, rfl, rfl⟩ := hm
  have h4 : a4 = 1 := not_not.mp c3
  subst h4
  rw [headerLayout_eq]
  simp only [hk, Nat.sub_self, List.replicate_zero, List.append_nil, List.cons_append,
    List.nil_append, List.length_take, List.append_assoc]
  have hs : min a17 tl.length = a17 := by omega
  simp only [hs, List.length_drop, hk]
  have htl : tl = tl.take a17 ++ (tl.getD a17 0 :: ((tl.drop (a17 + 1)).take (tl.getD a17 0)
      ++ tl.drop (a17 + 1 + tl.getD a17 0))) := by
    have e1 : tl.drop a17 = tl.getD a17 0 :: tl.drop (a17 + 1) := by
      rw [List.getD_eq_getElem _ _ (show a17 < tl.length by omega)]
      exact List.drop_eq_getElem_cons (by omega)
    have e2 : tl.drop (a17 + 1) = (tl.drop (a17 + 1)).take (tl.getD a17 0)
        ++ tl.drop (a17 + 1 + tl.getD a17 0) := by
      have hdd : (tl.drop (a17 + 1)).drop (tl.getD a17 0)
          = tl.drop (a17 + 1 + tl.getD a17 0) := by
        rw [List.drop_drop]
      rw [← hdd, List.take_append_drop]
    calc tl = tl.take a17 ++ tl.drop a17 := (List.take_append_drop _ _).symm
      _ = _ := by rw [e1]; rw [← e2]
  have hF : (a5 * 2 ^ 8 + a6) / 2 ^ 8 % 256 = a5 ∧ (a5 * 2 ^ 8 + a6) % 256 = a6 := by omega
  have hT : (a8 * 2 ^ 24 + a9 * 2 ^ 16 + a10 * 2 ^ 8 + a11) / 2 ^ 24 % 256 = a8 ∧
      (a8 * 2 ^ 24 + a9 * 2 ^ 16 + a10 * 2 ^ 8 + a11) / 2 ^ 16 % 256 = a9 ∧
      (a8 * 2 ^ 24 + a9 * 2 ^ 16 + a10 * 2 ^ 8 + a11) / 2 ^ 8 % 256 = a10 ∧
      (a8 * 2 ^ 24 + a9 * 2 ^ 16 + a10 * 2 ^ 8 + a11) % 256 = a11 := by omega
  have hM : (a12 * 2 ^ 24 + a13 * 2 ^ 16 + a14 * 2 ^ 8 + a15) / 2 ^ 24 % 256 = a12 ∧
      (a12 * 2 ^ 24 + a13 * 2 ^ 16 + a14 * 2 ^ 8 + a15) / 2 ^ 16 % 256 = a13 ∧
      (a12 * 2 ^ 24 + a13 * 2 ^ 16 + a14 * 2 ^ 8 + a15) / 2 ^ 8 % 256 = a14 ∧
      (a12 * 2 ^ 24 + a13 * 2 ^ 16 + a14 * 2 ^ 8 + a15) % 256 = a15 := by omega
  rw [hF.1, hF.2, hT.1, hT.2.1, hT.2.2.1, hT.2.2.2, hM.1, hM.2.1, hM.2.2.1, hM.2.2.2]
  simp only [List.cons.injEq, true_and]
  exact htl

theorem isBytes_set (l : Bytes) (i b : Nat) (hl : isBytes l) (hb : b < 256) :
    isBytes (l.set i b) := by
  intro x hx
  rcases List.mem_or_eq_of_mem_set hx with h | h
  · exact hl x h
  · rw [h]; exact hb

theorem isBytes_headerLayout (h : fileHeader) (hw : h.wellTyped) (hs : h.Salt.length ≤ 255)
    (hn : h.Nonce.length ≤ 255) : isBytes (headerLayout h) := by
  obtain ⟨w1, w2, w3, w4, w5, w6, w7⟩ := hw
  rw [headerLayout_eq]
  simp only [List.cons_append, List.nil_append, isBytes_cons, isBytes_append]
  refine ⟨by omega, by omega, by omega, by omega, by omega, by omega, by omega, by omega,
    by omega, by omega, by omega, by omega, by omega, by omega, by omega, by omega, by omega,
    by omega, w6, by omega, w7⟩

theorem layout_getD_congr (h h' : fileHeader) (ct : Bytes) (i : Nat)
    (hk : headerKDF h' = headerKDF h) (hn : h'.Nonce = h.Nonce)
    (hi5 : i ≠ 5) (hi6 : i ≠ 6) (hi7 : i ≠ 7) :
    (headerLayout h' ++ ct).getD i 0 = (headerLayout h ++ ct).getD i 0 := by
  have e1 : h'.ArgonTime = h.ArgonTime := congrArg KDFParams.Time hk
  have e2 : h'.ArgonMemory = h.ArgonMemory := congrArg KDFParams.Memory hk
  have e3 : h'.ArgonThreads = h.ArgonThreads := congrArg KDFParams.Threads hk
  have e4 : h'.Salt = h.Salt := congrArg KDFParams.Salt hk
  rw [headerLayout_eq, headerLayout_eq, e1, e2, e3, e4, hn]
  simp only [List.cons_append, List.nil_append]
  by_cases hi : i < 18
  · interval_cases i <;> first | rfl | contradiction
  · obtain ⟨k, rfl⟩ : ∃ k, i = k + 18 := ⟨i - 18, by omega⟩
    simp only [List.getD_cons_succ]

theorem getD_set_self (l : Bytes) (i b : Nat) (hi : i < l.length) :
    (l.set i b).getD i 0 = b := by
  simp [List.getD_eq_getElem?_getD, hi]

/-- C5, amended. For a file made of an encoded header and a ciphertext,
changing one byte at any position other than the flags bytes (offsets 5 and 6)
and the kdfAlgo byte (offset 7) to a different value gives a file that, if
`decodeHeader` accepts it, hands KDF and AEAD parameters, a nonce or a
ciphertext other than the written ones. Trusting KDF and AEAD to reject that
changed input, `Open` with the passphrase never returns nil on the changed file,
and whenever `Open` returns, it returns `ErrCorrupt` or `ErrAuthFailed`. -/
theorem Open_detects_corruption (P : Primitives) (J : JSONCodec) (fs : FileSys) (rand : Rand)
    (v : Vault) (pass : Bytes) (h : fileHeader) (hdr ct : Bytes) (i b : Nat)
    (henc : encodeHeader h = .ok hdr) (hw : h.wellTyped) (hct : isBytes ct)
    (hi : i < (hdr ++ ct).length) (hi5 : i ≠ 5) (hi6 : i ≠ 6) (hi7 : i ≠ 7)
    (hb : b < 256) (hne : b ≠ (hdr ++ ct).getD i 0)
    (hr : osReadFile fs v.Filename = .ok ((hdr ++ ct).set i b)) :
    (∀ h' ct', decodeHeader ((hdr ++ ct).set i b) = .ok (h', ct') →
      (headerKDF h', h'.Nonce, ct') ≠ (headerKDF h, h.Nonce, ct)) ∧
    ((∀ h' ct', decodeHeader ((hdr ++ ct).set i b) = .ok (h', ct') →
        P.rejectsChanged pass (headerKDF h) h.Nonce ct (headerKDF h') h'.Nonce ct') →
      (v.Open P J fs rand pass).err? ≠ some none ∧
      ∀ e, (v.Open P J fs rand pass).err? = some (some e) →
        e = GoError.ErrCorrupt ∨ e = GoError.ErrAuthFailed) := by
  -- the header was encoded, so it is the layout
  rw [encodeHeader_eq] at henc
  by_cases hs : h.Salt.length > 255
  · rw [if_pos hs] at henc; cases henc
  rw [if_neg hs] at henc
  by_cases hn : h.Nonce.length > 255
  · rw [if_pos hn] at henc; cases henc
  rw [if_neg hn] at henc
  cases henc
  -- a changed file that decodes hands the primitives something that was not written
  have hchanged : ∀ h' ct', decodeHeader ((headerLayout h ++ ct).set i b) = .ok (h', ct') →
      (headerKDF h', h'.Nonce, ct') ≠ (headerKDF h, h.Nonce, ct) := by
    intro h' ct' hd heq
    simp only [Prod.mk.injEq] at heq
    obtain ⟨e1, e2, e3⟩ := heq
    subst e3
    have hsalt : h'.Salt = h.Salt := congrArg KDFParams.Salt e1
    have hbytes : isBytes ((headerLayout h ++ ct').set i b) :=
      isBytes_set _ _ _ ((isBytes_append _ _).mpr
        ⟨isBytes_headerLayout h hw (by omega) (by omega), hct⟩) hb
    have hlen : 19 + h'.Salt.length + h'.Nonce.length
        ≤ ((headerLayout h ++ ct').set i b).length := by
      rw [hsalt, e2, List.length_set, List.length_append, headerLayout_length]
      omega
    have hinv := decodeHeader_inv _ h' ct' hd hbytes hlen
    have hget := congrArg (fun l => List.getD l i 0) hinv
    simp only [] at hget
    rw [getD_set_self _ _ _ hi, layout_getD_congr h h' ct' i e1 e2 hi5 hi6 hi7] at hget
    exact hne hget
  refine ⟨hchanged, fun htrust => ?_⟩
  cases hd : decodeHeader ((headerLayout h ++ ct).set i b) with
  | error e =>
    rw [Open_decode_error P J fs rand v pass _ e hr hd]
    simp [Outcome.err?]
  | ok res =>
    obtain ⟨h', ct'⟩ := res
    rcases Derive_cases P pass (headerKDF h') infoVaultV1 with ⟨hp, -⟩ | ⟨-, -, hk⟩
    · rw [Open_derive_panic P J fs rand v pass _ ct' h' hr hd hp]
      simp [Outcome.err?]
    · cases ha : AEADOpen P (P.hkdfSha256 (P.argon2id pass (headerKDF h').Salt
          (headerKDF h').Time (headerKDF h').Memory (headerKDF h').Threads MasterKeyLen) []
          infoVaultV1 FEKLen) h'.Nonce Magic ct' with
      | panic =>
        rw [Open_aead_panic P J fs rand v pass _ ct' _ _ h' hr hd hk ha]
        simp [Outcome.err?]
      | ret res =>
        cases res with
        | error e =>
          rw [Open_aead_error P J fs rand v pass _ ct' _ _ h' e hr hd hk ha]
          simp [Outcome.err?]
        | ok text =>
          exact absurd ha (htrust h' ct' hd (hchanged h' ct' hd) _ _ text hk)

theorem decodeHeader_changedSalt :
    decodeHeader ((headerLayout sampleFileHeader ++ sampleCiphertext).set 20 0xFF)
      = .ok (changedSaltHeader, sampleCiphertext) := by rfl

set_option maxRecDepth 100000 in
theorem samplePrimitives_rejects_changedSalt :
    AEADOpen samplePrimitives (derivedKey samplePrimitives samplePassphrase
      (headerKDF changedSaltHeader)) changedSaltHeader.Nonce Magic sampleCiphertext
      = .ret (.error GoError.errOpen) := by rfl

set_option maxRecDepth 100000 in
/-- C5, as the claim states it, fails: in the file `Create` wrote, changing the
kdfAlgo byte at offset 7 from 1 to 2 gives a file that `decodeHeader` accepts
with the same KDF parameters, nonce and ciphertext, and that `Open` opens with
the original passphrase, returning nil. -/
theorem Open_accepts_changed_kdfAlgo :
    sampleCreated.err? = some none ∧
    sampleCreated.file? samplePath = some sampleFile ∧
    sampleFile.getD 7 0 = 1 ∧
    decodeHeader (sampleFile.set 7 2) = .ok (changedAlgoHeader, sampleCiphertext) ∧
    headerKDF changedAlgoHeader = headerKDF sampleFileHeader ∧
    changedAlgoHeader.Nonce = sampleFileHeader.Nonce ∧
    ((NewVault samplePath none).Open samplePrimitives goJSON
      (fsWith samplePath (sampleFile.set 7 2)) sampleRand samplePassphrase).err? = some none := by
  refine ⟨by rfl, by rfl, by rfl, by rfl, by rfl, by rfl, by rfl⟩

set_option maxRecDepth 100000 in
theorem Open_detects_corruption_witness :
    samplePrimitives.sealOpenLaw ∧
    sampleCreated.file? samplePath = some (headerLayout sampleFileHeader ++ sampleCiphertext) ∧
    ((NewVault samplePath none).Open samplePrimitives goJSON
      (fsWith samplePath ((headerLayout sampleFileHeader ++ sampleCiphertext).set 20 0xFF))
      sampleRand samplePassphrase).err? ≠ some none :=
  ⟨samplePrimitives_sealOpenLaw, sampleCreated_file,
    ((Open_detects_corruption samplePrimitives goJSON
      (fsWith samplePath ((headerLayout sampleFileHeader ++ sampleCiphertext).set 20 0xFF))
      sampleRand (NewVault samplePath none) samplePassphrase sampleFileHeader
      (headerLayout sampleFileHeader) sampleCiphertext 20 0xFF (by rfl) (by decide) (by decide)
      (by decide) (by decide) (by decide) (by decide) (by decide) (by decide) (by rfl)).2
      (by
        intro h' ct' hd _ fek pass' text hder
        rw [decodeHeader_changedSalt] at hd
        simp only [Except.ok.injEq, Prod.mk.injEq] at hd
        obtain ⟨rfl, rfl⟩ := hd
        rcases Derive_cases samplePrimitives samplePassphrase (headerKDF changedSaltHeader)
          infoVaultV1 with ⟨hp, -⟩ | ⟨-, -, hk⟩
        · rw [hp] at hder; cases hder
        · rw [hk] at hder
          simp only [Outcome.ret.injEq, Prod.mk.injEq, Except.ok.injEq] at hder
          obtain ⟨rfl, -⟩ := hder
          have hrej := samplePrimitives_rejects_changedSalt
          unfold derivedKey at hrej
          rw [hrej]
          simp)).1⟩

/-! ## The passphrase buffer -/

theorem zero_length (b : Bytes) : (zero b).length = b.length := by
  induction b with
  | nil => rfl
  | cons x xs ih => simp [zero, ih]

theorem zero_all (b : Bytes) : ∀ x ∈ zero b, x = 0 := by
  induction b with
  | nil => simp [zero]
  | cons x xs ih =>
    intro y hy
    simp only [zero, List.mem_cons] at hy
    rcases hy with rfl | hy
    · rfl
    · exact ih y hy

theorem Derive_returns (P : Primitives) (pass : Bytes) (k : KDFParams) (info : Bytes)
    (res : Except GoError Bytes) (pass' : Bytes)
    (h : DeriveFEKFromPassphrase P pass k info = .ret (res, pass')) : pass' = zero pass := by
  rcases Derive_cases P pass k info with ⟨hp, -⟩ | ⟨-, -, hk⟩
  · rw [hp] at h; cases h
  · rw [hk] at h
    simp only [Outcome.ret.injEq, Prod.mk.injEq] at h
    exact h.2.symm

theorem Create_passphrase (P : Primitives) (J : JSONCodec) (env : OSEnv) (fs : FileSys)
    (rand : Rand) (v : Vault) (pass : Bytes) (w : World)
    (h : v.Create P J env fs rand pass = .ret w) : w.passphrase = zero pass := by
  unfold Vault.Create at h
  by_cases hsalt : v.KDF.Salt.length = 0
  · simp only [hsalt, if_true] at h
    rcases Derive_cases P pass { v.KDF with Salt := (randBytes rand 16).1 } infoVaultV1 with
      ⟨hp, -⟩ | ⟨-, -, hk⟩
    · simp only [hp] at h
      cases h
    · simp only [hk] at h
      split at h
      · cases h
      · split at h
        · cases h; rfl
        · cases h; rfl
  · simp only [hsalt, if_false] at h
    rcases Derive_cases P pass v.KDF infoVaultV1 with ⟨hp, -⟩ | ⟨-, -, hk⟩
    · simp only [hp] at h
      cases h
    · simp only [hk] at h
      split at h
      · cases h
      · split at h
        · cases h; rfl
        · cases h; rfl

theorem Open_passphrase (P : Primitives) (J : JSONCodec) (fs : FileSys) (rand : Rand)
    (v : Vault) (pass raw ct : Bytes) (hdr : fileHeader) (w : World)
    (hr : osReadFile fs v.Filename = .ok raw) (hd : decodeHeader raw = .ok (hdr, ct))
    (h : v.Open P J fs rand pass = .ret w) : w.passphrase = zero pass := by
  rcases Derive_cases P pass (headerKDF hdr) infoVaultV1 with ⟨hp, -⟩ | ⟨-, -, hk⟩
  · rw [Open_derive_panic P J fs rand v pass raw ct hdr hr hd hp] at h
    cases h
  · cases ha : AEADOpen P (P.hkdfSha256 (P.argon2id pass (headerKDF hdr).Salt
        (headerKDF hdr).Time (headerKDF hdr).Memory (headerKDF hdr).Threads MasterKeyLen) []
        infoVaultV1 FEKLen) hdr.Nonce Magic ct with
    | panic =>
      rw [Open_aead_panic P J fs rand v pass raw ct _ _ hdr hr hd hk ha] at h
      cases h
    | ret res =>
      cases res with
      | error e =>
        rw [Open_aead_error P J fs rand v pass raw ct _ _ hdr e hr hd hk ha] at h
        cases h; rfl
      | ok text =>
        rw [Open_aead_ok P J fs rand v pass raw ct _ _ text hdr hr hd hk ha] at h
        cases h; rfl

/-- C11. When `DeriveFEKFromPassphrase` returns, with a key or with an error,
the caller's passphrase buffer has its old length and holds only zeros; so it
does after every `Create` that returns, and after every `Open` that returns
having read the file and decoded its header. -/
theorem passphrase_wiped (P : Primitives) (pass : Bytes) :
    (∀ (k : KDFParams) (info : Bytes) (res : Except GoError Bytes) (pass' : Bytes),
      DeriveFEKFromPassphrase P pass k info = .ret (res, pass') →
      pass'.length = pass.length ∧ ∀ b ∈ pass', b = 0) ∧
    (∀ (J : JSONCodec) (env : OSEnv) (fs : FileSys) (rand : Rand) (v : Vault) (w : World),
      v.Create P J env fs rand pass = .ret w →
      w.passphrase.length = pass.length ∧ ∀ b ∈ w.passphrase, b = 0) ∧
    (∀ (J : JSONCodec) (fs : FileSys) (rand : Rand) (v : Vault) (w : World) (raw ct : Bytes)
      (hdr : fileHeader),
      osReadFile fs v.Filename = .ok raw → decodeHeader raw = .ok (hdr, ct) →
      v.Open P J fs rand pass = .ret w →
      w.passphrase.length = pass.length ∧ ∀ b ∈ w.passphrase, b = 0) := by
  refine ⟨?_, ?_, ?_⟩
  · intro k info res pass' h
    rw [Derive_returns P pass k info res pass' h]
    exact ⟨zero_length pass, zero_all pass⟩
  · intro J env fs rand v w h
    rw [Create_passphrase P J env fs rand v pass w h]
    exact ⟨zero_length pass, zero_all pass⟩
  · intro J fs rand v w raw ct hdr hr hd h
    rw [Open_passphrase P J fs rand v pass raw ct hdr w hr hd h]
    exact ⟨zero_length pass, zero_all pass⟩

set_option maxRecDepth 100000 in
theorem passphrase_wiped_witness :
    (sampleWorld1.passphrase.length = samplePassphrase.length ∧
      ∀ b ∈ sampleWorld1.passphrase, b = 0) ∧
    (((NewVault samplePath none).Open samplePrimitives goJSON (fsWith samplePath sampleFile)
        sampleRand wrongPassphrase).world noWorld).passphrase.length = wrongPassphrase.length :=
  ⟨(passphrase_wiped samplePrimitives samplePassphrase).2.1 goJSON sampleEnv emptyFS sampleRand
      (NewVault samplePath none) sampleWorld1 (by rfl),
   ((passphrase_wiped samplePrimitives wrongPassphrase).2.2 goJSON
      (fsWith samplePath sampleFile) sampleRand (NewVault samplePath none)
      (((NewVault samplePath none).Open samplePrimitives goJSON (fsWith samplePath sampleFile)
        sampleRand wrongPassphrase).world noWorld) sampleFile sampleCiphertext sampleFileHeader
      (by rfl) decodeHeader_sampleFile (by rfl)).1⟩

/-! ## atomicWriteFile, and truncated headers -/

theorem remove_fresh (fs fs' : FileSys) (tmp : String) (h : fs tmp = none)
    (hoff : ∀ p, p ≠ tmp → fs' p = fs p) : ∀ p, osRemove fs' tmp p = fs p := by
  intro p
  unfold osRemove FileSys.set
  by_cases hp : p = tmp
  · simp [hp, h]
  · simp [hp, hoff p hp]

theorem set_off (fs : FileSys) (tmp : String) (f : Option File) :
    ∀ p, p ≠ tmp → fs.set tmp f p = fs p := by
  intro p hp
  simp [FileSys.set, hp]

theorem atomicWriteFile_cases (env : OSEnv) (fs : FileSys) (path : String) (data : Bytes)
    (perm : Nat) :
    (stepFailed env fs path ∧
      (atomicWriteFile env fs path data perm).1 = some GoError.osError ∧
      (∀ p, (atomicWriteFile env fs path data perm).2 p = fs p)) ∨
    (¬ stepFailed env fs path ∧ (atomicWriteFile env fs path data perm).1 = none) := by
  unfold stepFailed createTempFailed atomicWriteFile
  by_cases h1 : env.createTempFails = true ∨ (fs (env.tempPath path)).isSome = true
  · left
    rw [if_pos h1]
    exact ⟨Or.inl h1, rfl, fun p => rfl⟩
  · rw [if_neg h1]
    have hfresh : fs (env.tempPath path) = none := by
      cases hf : fs (env.tempPath path) with
      | none => rfl
      | some f => exact absurd (Or.inr (by simp [hf])) h1
    simp only []
    by_cases h2 : env.writeFails = true
    · left
      rw [if_pos h2]
      exact ⟨Or.inr (Or.inl h2), rfl, remove_fresh fs _ _ hfresh
        (fun p hp => by rw [set_off _ _ _ p hp, set_off _ _ _ p hp])⟩
    rw [if_neg h2]
    by_cases h3 : env.syncFails = true
    · left
      rw [if_pos h3]
      refine ⟨Or.inr (Or.inr (Or.inl h3)), rfl, ?_⟩
      exact remove_fresh fs _ _ hfresh
        (fun p hp => by rw [set_off _ _ _ p hp, set_off _ _ _ p hp])
    rw [if_neg h3]
    by_cases h4 : env.closeFails = true
    · left
      rw [if_pos h4]
      refine ⟨Or.inr (Or.inr (Or.inr (Or.inl h4))), rfl, ?_⟩
      exact remove_fresh fs _ _ hfresh
        (fun p hp => by rw [set_off _ _ _ p hp, set_off _ _ _ p hp])
    rw [if_neg h4]
    by_cases h5 : env.renameFails = true
    · left
      rw [if_pos h5]
      refine ⟨Or.inr (Or.inr (Or.inr (Or.inr h5))), rfl, ?_⟩
      exact remove_fresh fs _ _ hfresh
        (fun p hp => by rw [set_off _ _ _ p hp, set_off _ _ _ p hp])
    rw [if_neg h5]
    right
    refine ⟨?_, rfl⟩
    rintro (h | h | h | h | h)
    · exact h1 h
    · exact h2 h
    · exact h3 h
    · exact h4 h
    · exact h5 h

/-- C12. If `atomicWriteFile` returns an error, the target path holds exactly
what it held before, the temporary file (if one was created) does not exist
and every other path is as before; it returns an error if and only if creating
the temporary file, the write, the sync, the close or the rename fails, so
failures of the directory sync and of the chmod are not reported. -/
theorem atomicWriteFile_atomic (env : OSEnv) (fs : FileSys) (path : String) (data : Bytes)
    (perm : Nat) :
    (∀ e, (atomicWriteFile env fs path data perm).1 = some e →
      (atomicWriteFile env fs path data perm).2 path = fs path ∧
      osReadFile (atomicWriteFile env fs path data perm).2 path = osReadFile fs path ∧
      (¬ createTempFailed env fs path →
        (atomicWriteFile env fs path data perm).2 (env.tempPath path) = none) ∧
      (∀ p, (atomicWriteFile env fs path data perm).2 p = fs p)) ∧
    ((∃ e, (atomicWriteFile env fs path data perm).1 = some e) ↔ stepFailed env fs path) ∧
    (¬ stepFailed env fs path → (atomicWriteFile env fs path data perm).1 = none) := by
  rcases atomicWriteFile_cases env fs path data perm with ⟨hf, he, hfs⟩ | ⟨hf, he⟩
  · refine ⟨fun e _ => ⟨hfs path, ?_, ?_, hfs⟩, ⟨fun _ => hf, fun _ => ⟨_, he⟩⟩,
      fun h => absurd hf h⟩
    · unfold osReadFile
      rw [hfs path]
    · intro hc
      rw [hfs]
      cases hx : fs (env.tempPath path) with
      | none => rfl
      | some f => exact absurd (Or.inr (by simp [hx])) hc
  · refine ⟨fun e h => ?_, ⟨fun ⟨e, h⟩ => ?_, fun h => absurd h hf⟩, fun _ => he⟩
    · rw [he] at h; cases h
    · rw [he] at h; cases h

set_option maxRecDepth 100000 in
theorem atomicWriteFile_atomic_witness :
    (atomicWriteFile failingWriteEnv (fsWith samplePath sampleFile) samplePath
        [1, 2, 3, 4, 5] 0o600).1 = some GoError.osError ∧
    osReadFile (atomicWriteFile failingWriteEnv (fsWith samplePath sampleFile) samplePath
        [1, 2, 3, 4, 5] 0o600).2 samplePath = .ok sampleFile ∧
    (atomicWriteFile failingChmodEnv (fsWith samplePath sampleFile) samplePath
        [1, 2, 3, 4, 5] 0o600).1 = none :=
  ⟨by rfl,
   ((atomicWriteFile_atomic failingWriteEnv (fsWith samplePath sampleFile) samplePath
      [1, 2, 3, 4, 5] 0o600).1 GoError.osError (by rfl)).2.1.trans (by rfl),
   (atomicWriteFile_atomic failingChmodEnv (fsWith samplePath sampleFile) samplePath
      [1, 2, 3, 4, 5] 0o600).2.2 (by decide)⟩

/-- C13. An input cut off inside the nonce is accepted: of the 24 bytes the
nonce length declares only 5 are there, and `decodeHeader` returns a header
whose nonce is those 5 bytes followed by 19 zeros, with no remaining bytes;
encoding that header gives 59 bytes, not the 40 of the input. -/
theorem decodeHeader_accepts_truncated_nonce :
    truncatedNonceFile.length = 40 ∧
    truncatedNonceFile.getD 17 0 = 16 ∧ truncatedNonceFile.getD 34 0 = 24 ∧
    truncatedNonceFile.length < 19 + 16 + 24 ∧
    decodeHeader truncatedNonceFile = .ok (paddedNonceHeader, []) ∧
    paddedNonceHeader.Nonce = [100, 101, 102, 103, 104] ++ List.replicate 19 0 ∧
    (∃ hdr, encodeHeader paddedNonceHeader = .ok hdr ∧ hdr.length = 59 ∧
      hdr ++ [] ≠ truncatedNonceFile) := by
  refine ⟨by rfl, by rfl, by rfl, by decide, by rfl, by rfl, ?_⟩
  refine ⟨headerLayout paddedNonceHeader, by rfl, by rfl, by decide⟩

end GoVault
